import Mathlib

/-!
Verification of the `lude.rs` repository: a fixed-capacity component store
(`src/ecs/src/lib.rs`) and a fixed-tick simulator (`src/simul/src/lib.rs`),
shallowly embedded in Lean.

Modelling conventions, ECS (`src/ecs/src/lib.rs`):

* Component types are identified by a natural number `tid` standing for Rust's
  `TypeId`; each registration also records `sz`, standing for the padded element
  size (stride) that `Layout::repeat` yields for the column, so `sz = 0` exactly
  for zero-sized types.
* A column is a `List (Option Nat)` of length `cap`; `some v` means the slot
  holds a valid (initialized, not moved-out) value, `none` means the memory is
  uninitialized or the value was moved out by `modify`'s `ptr::read`.
* The registry models the `HashTable` of `component_ptrs`: an association list
  in insertion order, so the slot index `k` is the list position ("the next
  free slot index", spec section 4.1); the table is full at `component_n = 64`
  entries, the bit width of `Mask = u64`.
* Rust panics (out-of-bounds slice indexes, `storage()[k]`) are modelled as
  `Except.error ()`; ordinary returns as `Except.ok`.
* Allocator traffic of `reg` is reported as a list of `AllocEvent`s so that
  "the candidate column is deallocated before the error is returned" is
  checkable; zero-sized types never touch the allocator (`Unique::empty`).

Modelling conventions, simulator (`src/simul/src/lib.rs`):

* `time::Span` is modelled as an `Int` count of nanoseconds; `Point`
  subtraction has already happened, so `simulate` receives the elapsed span
  `d` directly.
* The `while self.cumul > Zero::zero` loop of `Frame::simulate` is embedded
  fuel-indexed (`loopF`): `none` means the fuel ran out while the source loop
  would still be running, which also lets non-termination for `tick ≤ 0` be
  expressed.  The loop state records the accumulator, the simulation state,
  the remembered prior snapshot, and counts of `step` and snapshot calls.
* The blend factor α is computed by the source at `f32` precision
  (`cumul.to_ns() as f32 / tick.to_ns() as f32`, negated).  The model
  (`natToF32`, `divRnd`, `alpha32`) performs the two casts and the division
  at IEEE binary32 precision — 24-bit significand, round to nearest, ties to
  even — and returns the exact rational the resulting binary32 value
  denotes.  The exponent is left unbounded, which coincides with binary32 on
  every value arising from `i64` nanosecond counts (no overflow, underflow
  or subnormals in that range).
-/

deriving instance DecidableEq for Except

namespace Ecs

/-- `component_n = size_of::<u64>() << 3`: the mask width, 64. -/
def componentN : Nat := 64

/-- Entity record `Enty { mask, version }` stored per entity index. -/
structure Enty where
  mask : Nat
  version : Nat
deriving Repr, DecidableEq

/-- Public entity handle `Entity { index, version }`. -/
structure Entity where
  index : Nat
  version : Nat
deriving Repr, DecidableEq

/-- One registry entry: the `TypeId` key, the padded element size of the
column layout (`0` iff the type is zero-sized), and the column contents. -/
structure RegEntry where
  tid : Nat
  sz : Nat
  col : List (Option Nat)
deriving Repr, DecidableEq

/-- The component store `Components`: the `RawVec<Enty>` of entity records and
the `component_ptrs` hash table (as an insertion-ordered association list;
slot `k` = position).  The capacity is `entities.length`. -/
structure Store where
  entities : List Enty
  registry : List RegEntry
deriving Repr, DecidableEq

/-- `with_capacity_in`: `cap` entity records, every mask and version zeroed,
empty registry. -/
def Store.init (cap : Nat) : Store :=
  ⟨List.replicate cap ⟨0, 0⟩, []⟩

/-- `component_ptrs.find_with_ix(&TypeId::of::<C>())`: position and entry of
the first registry entry with the given type id. -/
def findC : List RegEntry → Nat → Option (Nat × RegEntry)
  | [], _ => none
  | ent :: es, tid =>
      if ent.tid = tid then some (0, ent)
      else (findC es tid).map (fun p => (p.1 + 1, p.2))

/-- Allocator events emitted by `reg`, in order. -/
inductive AllocEvent where
  | alloc
  | dealloc
deriving Repr, DecidableEq

/-- `Components::reg::<C>`: allocate a candidate column (only when
`size_of::<C>() ≠ 0`; otherwise `Unique::empty()`), then `insert_with`:

* key already present — the closure deallocates the candidate and keeps the
  existing pointer; `insert_with` returns `Ok`, so `reg` returns `Ok(())`
  (the dropper and layout at slot `k` are overwritten with identical values);
* table full — `insert_with` returns `Err`; `reg` invokes the closure on
  `Some(0)` to deallocate the candidate, and returns `Err`;
* key new and table not full — the candidate becomes the column of the next
  free slot, and `reg` returns `Ok(())`.

The result is `(store, succeeded, allocator events)`. -/
def Store.reg (s : Store) (tid sz : Nat) : Store × Bool × List AllocEvent :=
  match findC s.registry tid with
  | some _ => (s, true, if sz = 0 then [] else [.alloc, .dealloc])
  | none =>
      if s.registry.length < componentN then
        ({ s with registry := s.registry ++ [⟨tid, sz, List.replicate s.entities.length none⟩] },
         true, if sz = 0 then [] else [.alloc])
      else (s, false, if sz = 0 then [] else [.alloc, .dealloc])

/-- Contents of column slot `i` (the value `ptr.offset(i)` points at). -/
def slotAt (col : List (Option Nat)) (i : Nat) : Option Nat :=
  (col.get? i).getD none

/-- `Components::get::<C>`: `None` if `C` is unregistered; otherwise index the
entity array — a panic (`Except.error`) if `index ≥ cap`, since
`storage()[k]` is an unchecked slice index — then return the slot value when
the handle version matches and mask bit `k` is set, else `None`. -/
def Store.get (s : Store) (tid : Nat) (e : Entity) : Except Unit (Option Nat) :=
  match findC s.registry tid with
  | none => .ok none
  | some (k, ent) =>
      match s.entities.get? e.index with
      | none => .error ()
      | some en =>
          if e.version = en.version ∧ en.mask.testBit k then .ok (slotAt ent.col e.index)
          else .ok none

/-- Set mask bit `k`: `mask |= 1 << k`. -/
def setBit (m k : Nat) : Nat := m ||| 2 ^ k

/-- Clear mask bit `k`: `mask &= !(1 << k)`. -/
def clrBit (m k : Nat) : Nat := if m.testBit k then m ^^^ 2 ^ k else m

/-- `Components::modify::<C>`: no-op (`f` not invoked) if `C` is unregistered;
panic if `index ≥ cap`; no-op if the handle version mismatches.  Otherwise
move the current value (if the mask bit is set) out of the slot into an
option, clearing the bit; apply `f`; if the result is full, write it back and
set the bit.  Returns the new store and whether `f` was invoked. -/
def Store.modify (s : Store) (tid : Nat) (e : Entity) (f : Option Nat → Option Nat) :
    Except Unit (Store × Bool) :=
  match findC s.registry tid with
  | none => .ok (s, false)
  | some (k, ent) =>
      match s.entities.get? e.index with
      | none => .error ()
      | some en =>
          if e.version ≠ en.version then .ok (s, false)
          else
            let present := en.mask.testBit k
            let cOpt : Option Nat := if present then slotAt ent.col e.index else none
            let maskTaken := if present then clrBit en.mask k else en.mask
            let colTaken := if present then ent.col.set e.index none else ent.col
            match f cOpt with
            | none =>
                .ok ({ entities := s.entities.set e.index ⟨maskTaken, en.version⟩,
                       registry := s.registry.set k { ent with col := colTaken } }, true)
            | some x =>
                .ok ({ entities := s.entities.set e.index ⟨setBit maskTaken k, en.version⟩,
                       registry := s.registry.set k
                         { ent with col := colTaken.set e.index (some x) } }, true)

/-- `impl Drop for Components`: for each registry entry at slot `k`, the
`Ptrs` iterator walks the column with stride `size` from `layout.repeat(n)`;
for a zero-sized type the stride is `0`, so `end == ptr` at once and the
iterator yields nothing.  Otherwise it yields `cap` pointers in ascending
index order, and the slot-`k` dropper runs on index `i` exactly when mask bit
`k` of entity `i` is set.  Returns the `(slot, index)` destructor invocations
in order. -/
def dropCalls (s : Store) : List (Nat × Nat) :=
  (s.registry.enum.map (fun p =>
    if p.2.sz = 0 then []
    else (List.range s.entities.length).filterMap (fun i =>
      match s.entities.get? i with
      | some en => if en.mask.testBit p.1 then some (p.1, i) else none
      | none => none))).flatten

/-- Interaction scripts: the store-mutating public operations. -/
inductive Op where
  | reg (tid sz : Nat)
  | mod (tid : Nat) (e : Entity) (f : Option Nat → Option Nat)

/-- Run a script; `Except.error` if some `modify` panicked. -/
def run (s : Store) : List Op → Except Unit Store
  | [] => .ok s
  | .reg tid sz :: ops => run (s.reg tid sz).1 ops
  | .mod tid e f :: ops =>
      match s.modify tid e f with
      | .error _ => .error ()
      | .ok (s1, _) => run s1 ops

/-- The store invariant maintained by every public operation: columns are
`cap` slots long, at most 64 types are registered with distinct type ids,
every mask uses only bits of registered slots, every version is zero, and
mask bit `k` of entity `i` is set exactly when column `k` holds a valid value
at slot `i`. -/
structure Inv (s : Store) : Prop where
  colLen : ∀ ent ∈ s.registry, ent.col.length = s.entities.length
  regLen : s.registry.length ≤ componentN
  tidNodup : (s.registry.map RegEntry.tid).Nodup
  maskBound : ∀ en ∈ s.entities, en.mask < 2 ^ s.registry.length
  ver0 : ∀ en ∈ s.entities, en.version = 0
  sync : ∀ k ent, s.registry.get? k = some ent → ∀ i en, s.entities.get? i = some en →
    (en.mask.testBit k ↔ (slotAt ent.col i).isSome)

end Ecs

namespace Simul

/-- `Simulator { tick, cumul, total }` (the `then` instant is represented by
handing elapsed spans directly to `simulate`). -/
structure Simulator where
  tick : Int
  cumul : Int
  total : Int
deriving Repr, DecidableEq

/-- `Simulator::new(tick)`: stores the tick unchecked, zeroes the accumulator
and the total. -/
def Simulator.new (tick : Int) : Simulator := ⟨tick, 0, 0⟩

/-- State of the `while cumul > 0` loop in `Frame::simulate`: the
accumulator, the simulation state, the remembered `prior_state_opt`, and
instrumentation counts of `step` and snapshot calls. -/
structure LoopState (σ π : Type) where
  cumul : Int
  state : σ
  prior : Option π
  steps : Nat
  snaps : Nat
deriving Repr, DecidableEq

/-- The tick loop of `Frame::simulate`, fuel-indexed: while `cumul > 0`,
subtract `tick`; if the result is negative, call the snapshot closure `h`
(propagating `Err` via `?`), remembering its `Option` result; then `step`.
`none` = fuel exhausted while the source loop would still run. -/
def loopF {σ π ε : Type} (tick : Int) (step : σ → σ) (h : σ → Except ε (Option π)) :
    Nat → LoopState σ π → Option (Except ε (LoopState σ π))
  | 0, st => if st.cumul ≤ 0 then some (.ok st) else none
  | fuel + 1, st =>
      if st.cumul ≤ 0 then some (.ok st)
      else if st.cumul - tick < 0 then
        match h st.state with
        | .error e => some (.error e)
        | .ok p =>
            loopF tick step h fuel
              ⟨st.cumul - tick, step st.state, p, st.steps + 1, st.snaps + 1⟩
      else
        loopF tick step h fuel
          ⟨st.cumul - tick, step st.state, st.prior, st.steps + 1, st.snaps⟩

/-- `Frame::simulate` up to the interpolation call: `elapse` adds the elapsed
span `d` to the accumulator, then the tick loop runs from state `s0` with no
prior snapshot. -/
def simulateF {σ π ε : Type} (tick cumul d : Int) (s0 : σ) (step : σ → σ)
    (h : σ → Except ε (Option π)) (fuel : Nat) : Option (Except ε (LoopState σ π)) :=
  loopF tick step h fuel ⟨cumul + d, s0, none, 0, 0⟩

/-- Floor of log₂, fuel-indexed (structural, so kernel-computable); fuel 64
covers every `i64` magnitude. -/
def log2f : Nat → Nat → Nat
  | 0, _ => 0
  | fuel + 1, n => if n ≤ 1 then 0 else log2f fuel (n / 2) + 1

/-- Round to nearest, ties to even: the integer nearest `t + r/u`
(`0 ≤ r < u`), choosing the even neighbour at `r/u = 1/2`. -/
def roundHE (t r u : Nat) : Nat :=
  if 2 * r < u then t
  else if u < 2 * r then t + 1
  else if t % 2 = 0 then t else t + 1

/-- The IEEE binary32 value of an `i64` magnitude (the `as f32` casts of the
nanosecond counts): exact below `2^24`, otherwise rounded to the 24-bit
significand grid of step `2^(⌊log₂ n⌋ - 23)` with ties to even.  The cast of
an integer magnitude is always an integer, so the model returns `Nat`. -/
def natToF32 (n : Nat) : Nat :=
  if n < 2 ^ 24 then n
  else
    roundHE (n / 2 ^ (log2f 64 n - 23)) (n % 2 ^ (log2f 64 n - 23)) (2 ^ (log2f 64 n - 23))
      * 2 ^ (log2f 64 n - 23)

/-- Left-shift count normalising a quotient `p/q` up into `[2^23·q, ∞)`. -/
def upShift : Nat → Nat → Nat → Nat
  | 0, _, _ => 0
  | fuel + 1, p, q => if 2 ^ 23 * q ≤ p then 0 else upShift fuel (2 * p) q + 1

/-- Right-shift count normalising a quotient `p/q` down into `[0, 2^24·q)`. -/
def dnShift : Nat → Nat → Nat → Nat
  | 0, _, _ => 0
  | fuel + 1, p, q => if p < 2 ^ 24 * q then 0 else dnShift fuel p (2 * q) + 1

/-- Correctly rounded IEEE binary32 division of two nonnegative binary32
magnitudes (round to nearest, ties to even): normalise the quotient's
significand into `[2^23, 2^24)`, round half to even, scale back, and return
the exact rational the binary32 result denotes.  The exponent is unbounded —
no overflow, underflow or subnormal flushing — which is faithful for every
quotient of binary32 values of nonzero `i64` magnitudes. -/
def divRnd (p q : Nat) : ℚ :=
  if p = 0 ∨ q = 0 then 0
  else
    let a := upShift 150 p q
    let b := dnShift 150 p q
    let n := roundHE (p * 2 ^ a / (q * 2 ^ b)) (p * 2 ^ a % (q * 2 ^ b)) (q * 2 ^ b)
    if b ≤ a then (n : ℚ) / 2 ^ (a - b) else (n : ℚ) * 2 ^ (b - a)

/-- The blend factor
`(self.cumul.to_ns() as f32 / self.tick.to_ns() as f32).neg()`: the two
`as f32` casts and the `f32` division at IEEE binary32 precision
(round to nearest, ties to even), the sign by the IEEE sign rule, and the
final negation (exact in IEEE).  `tick = 0` (a division by zero the source
would turn into NaN/∞) is mapped to 0 and excluded by every theorem's
`0 < tick` hypothesis. -/
def alpha32 (tick c : Int) : ℚ :=
  if (c < 0 ∧ tick < 0) ∨ (0 ≤ c ∧ 0 ≤ tick) then
    -(divRnd (natToF32 c.natAbs) (natToF32 tick.natAbs))
  else divRnd (natToF32 c.natAbs) (natToF32 tick.natAbs)

/-- The second view handed to `interpolate`:
`prior_state_opt.as_ref().map_or(f(state), g)`. -/
def priorView {σ π γ : Type} (f : σ → γ) (g : π → γ) (st : LoopState σ π) : γ :=
  (st.prior.map g).getD (f st.state)

/-- The trivial step closure of the pure counting instance. -/
def pureStep : Unit → Unit := fun _ => ()

/-- The trivial snapshot closure of the pure counting instance: always
`Ok(None)`. -/
def pureSnap : Unit → Except Unit (Option Unit) := fun _ => .ok none

/-- A frame of the pure counting instance of the loop (state `Unit`,
snapshots always `Ok(None)`): starting accumulator `c`, elapsed span `d`. -/
def frameSteps (tick c d : Int) : Option (LoopState Unit Unit) :=
  match simulateF tick c d () pureStep pureSnap (c + d).toNat with
  | some (.ok st) => some st
  | _ => none

/-- Feed a sequence of elapsed spans through successive `simulate` calls,
accumulating the total number of `step` invocations. -/
def runFrames (tick : Int) (acc : Int × Nat) : List Int → Option (Int × Nat)
  | [] => some acc
  | d :: ds =>
      match frameSteps tick acc.1 d with
      | none => none
      | some st => runFrames tick (st.cumul, acc.2 + st.steps) ds

/-- Cumulative `step` count over a list of elapsed spans, from a fresh
simulator (`cumul = 0`). -/
def totalSteps (tick : Int) (ds : List Int) : Option (Int × Nat) :=
  runFrames tick (0, 0) ds

/-- When the accumulator is already non-positive the loop exits at once. -/
theorem loopF_done {σ π ε : Type} (tick : Int) (step : σ → σ) (h : σ → Except ε (Option π))
    (fuel : Nat) (st : LoopState σ π) (hc : st.cumul ≤ 0) :
    loopF tick step h fuel st = some (.ok st) := by
  cases fuel <;> simp [loopF, hc]

/-- Master characterization of a successful run of the tick loop: it performs
some number `n` of `step`s, subtracting `tick` each time; it stops as soon as
the accumulator is non-positive; a run entered with positive accumulator ends
in `(-tick, 0]`; the snapshot closure fires exactly when the final accumulator
is negative, on the state just before the last `step`; otherwise the
remembered prior is untouched. -/
theorem loopF_spec {σ π ε : Type} {tick : Int} (step : σ → σ)
    (h : σ → Except ε (Option π)) :
    ∀ (fuel : Nat) (st st' : LoopState σ π),
      loopF tick step h fuel st = some (.ok st') →
      ∃ n : Nat,
        st'.steps = st.steps + n ∧
        st'.cumul = st.cumul - (n : Int) * tick ∧
        st'.cumul ≤ 0 ∧
        (st.cumul ≤ 0 → st' = st) ∧
        (0 < st.cumul → 1 ≤ n ∧ -tick < st'.cumul) ∧
        st'.state = step^[n] st.state ∧
        st'.snaps = st.snaps + (if st'.cumul < 0 ∧ 0 < st.cumul then 1 else 0) ∧
        (st'.cumul < 0 ∧ 0 < st.cumul → 1 ≤ n ∧ h (step^[n - 1] st.state) = .ok st'.prior) ∧
        (¬(st'.cumul < 0 ∧ 0 < st.cumul) → st'.prior = st.prior) := by
  intro fuel
  induction fuel with
  | zero =>
      intro st st' hrun
      by_cases hc : st.cumul ≤ 0
      · simp only [loopF, if_pos hc, Option.some.injEq, Except.ok.injEq] at hrun
        subst hrun
        refine ⟨0, by simp, by simp, hc, fun _ => rfl, fun h0 => absurd h0 (by omega), by simp,
          ?_, fun hcc => absurd hcc.2 (by omega), fun _ => rfl⟩
        have hno : ¬(st.cumul < 0 ∧ 0 < st.cumul) := fun hcc => absurd hcc.2 (by omega)
        simp [hno]
      · simp only [loopF, if_neg hc] at hrun
        exact absurd hrun (by simp)
  | succ fuel ih =>
      intro st st' hrun
      by_cases hc : st.cumul ≤ 0
      · simp only [loopF, if_pos hc, Option.some.injEq, Except.ok.injEq] at hrun
        subst hrun
        refine ⟨0, by simp, by simp, hc, fun _ => rfl, fun h0 => absurd h0 (by omega), by simp,
          ?_, fun hcc => absurd hcc.2 (by omega), fun _ => rfl⟩
        have hno : ¬(st.cumul < 0 ∧ 0 < st.cumul) := fun hcc => absurd hcc.2 (by omega)
        simp [hno]
      · push_neg at hc
        by_cases hneg : st.cumul - tick < 0
        · cases hh : h st.state with
          | error e =>
              simp only [loopF, if_neg (not_le.mpr hc), if_pos hneg, hh] at hrun
              exact absurd hrun (by simp)
          | ok p =>
              simp only [loopF, if_neg (not_le.mpr hc), if_pos hneg, hh] at hrun
              rw [loopF_done tick step h fuel _ (le_of_lt hneg)] at hrun
              simp only [Option.some.injEq, Except.ok.injEq] at hrun
              subst hrun
              refine ⟨1, rfl, by push_cast; ring, le_of_lt hneg,
                fun hle => absurd hle (by omega),
                fun _ => ⟨le_refl 1, by show -tick < st.cumul - tick; omega⟩,
                by simp, by rw [if_pos ⟨hneg, hc⟩],
                fun _ => ⟨le_refl 1, by simpa using hh⟩, fun hn => absurd ⟨hneg, hc⟩ hn⟩
        · simp only [loopF, if_neg (not_le.mpr hc), if_neg hneg] at hrun
          obtain ⟨n', hsteps, hcum, hle, heq0, hpos, hstate, hsnaps, hsnap, hnoprior⟩ :=
            ih _ _ hrun
          push_neg at hneg
          dsimp only at hsteps hcum heq0 hpos hstate hsnaps hsnap hnoprior
          refine ⟨n' + 1, by omega, by rw [hcum]; push_cast; ring, hle,
            fun hle2 => absurd hle2 (by omega), ?_, ?_, ?_, ?_, ?_⟩
          · intro _
            refine ⟨by omega, ?_⟩
            rcases lt_or_le 0 (st.cumul - tick) with hgt | hle2
            · exact (hpos hgt).2
            · have hst := heq0 (by omega)
              rw [hst]
              show -tick < st.cumul - tick
              omega
          · rw [hstate, ← Function.iterate_succ_apply]
          · rcases lt_or_le 0 (st.cumul - tick) with hgt | hle2
            · have hiff : (st'.cumul < 0 ∧ 0 < st.cumul - tick) ↔ (st'.cumul < 0 ∧ 0 < st.cumul) := by
                constructor <;> exact fun hx => ⟨hx.1, by omega⟩
              rw [hsnaps, if_congr hiff rfl rfl]
            · have hst := heq0 (by omega)
              have hcum0 : st'.cumul = 0 := by
                rw [hst]; show st.cumul - tick = 0; omega
              rw [hsnaps, if_neg (by omega), if_neg (by rw [hcum0]; omega)]
          · intro hcc
            rcases lt_or_le 0 (st.cumul - tick) with hgt | hle2
            · obtain ⟨hn1, hhh⟩ := hsnap ⟨hcc.1, hgt⟩
              refine ⟨by omega, ?_⟩
              have hpred : n' - 1 + 1 = n' := by omega
              rw [Nat.add_sub_cancel, ← hpred, Function.iterate_succ_apply]
              exact hhh
            · have hst := heq0 (by omega)
              have hcum0 : st'.cumul = 0 := by
                rw [hst]; show st.cumul - tick = 0; omega
              exact absurd hcc.1 (by omega)
          · intro hn
            rcases lt_or_le 0 (st.cumul - tick) with hgt | hle2
            · refine (hnoprior ?_).trans rfl
              exact fun hx => hn ⟨hx.1, by omega⟩
            · have hst := heq0 (by omega)
              rw [hst]

/-- An `Err` out of the tick loop can only come from the snapshot closure,
applied to the simulation state after some number of steps. -/
theorem loopF_error {σ π ε : Type} {tick : Int} (step : σ → σ) (h : σ → Except ε (Option π)) :
    ∀ (fuel : Nat) (st : LoopState σ π) (e : ε),
      loopF tick step h fuel st = some (.error e) → ∃ m, h (step^[m] st.state) = .error e := by
  intro fuel
  induction fuel with
  | zero =>
      intro st e hrun
      by_cases hc : st.cumul ≤ 0
      · rw [loopF_done tick step h 0 st hc] at hrun
        exact absurd hrun (by simp)
      · simp only [loopF, if_neg hc] at hrun
        exact absurd hrun (by simp)
  | succ fuel ih =>
      intro st e hrun
      by_cases hc : st.cumul ≤ 0
      · rw [loopF_done tick step h _ _ hc] at hrun
        simp at hrun
      · by_cases hneg : st.cumul - tick < 0
        · cases hh : h st.state with
          | error e0 =>
              simp only [loopF, if_neg hc, if_pos hneg, hh, Option.some.injEq,
                Except.error.injEq] at hrun
              exact ⟨0, by simpa using hh.trans (congrArg Except.error hrun)⟩
          | ok p =>
              simp only [loopF, if_neg hc, if_pos hneg, hh] at hrun
              rw [loopF_done tick step h fuel _ (le_of_lt hneg)] at hrun
              simp at hrun
        · simp only [loopF, if_neg hc, if_neg hneg] at hrun
          obtain ⟨m, hm⟩ := ih _ _ hrun
          exact ⟨m + 1, by rw [Function.iterate_succ_apply]; exact hm⟩

/-- With a positive tick, fuel `cumul.toNat` always suffices: the source loop
terminates. -/
theorem loopF_total {σ π ε : Type} {tick : Int} (htick : 0 < tick) (step : σ → σ)
    (h : σ → Except ε (Option π)) :
    ∀ (fuel : Nat) (st : LoopState σ π), st.cumul.toNat ≤ fuel →
      (loopF tick step h fuel st).isSome := by
  intro fuel
  induction fuel with
  | zero =>
      intro st hfuel
      have hc : st.cumul ≤ 0 := by omega
      rw [loopF_done tick step h _ _ hc]; rfl
  | succ fuel ih =>
      intro st hfuel
      by_cases hc : st.cumul ≤ 0
      · rw [loopF_done tick step h _ _ hc]; rfl
      · by_cases hneg : st.cumul - tick < 0
        · cases hh : h st.state with
          | error e0 =>
              simp only [loopF, if_neg hc, if_pos hneg, hh]
              rfl
          | ok p =>
              simp only [loopF, if_neg hc, if_pos hneg, hh]
              rw [loopF_done tick step h fuel _ (le_of_lt hneg)]; rfl
        · simp only [loopF, if_neg hc, if_neg hneg]
          exact ih _ (by show (st.cumul - tick).toNat ≤ fuel; omega)

/-- If the tick is not positive, a loop entered with positive accumulator
never exits: `Simulator::new` does no validation, and termination rests
entirely on `tick > 0`. -/
theorem loopF_diverge {σ π ε : Type} {tick : Int} (htick : tick ≤ 0) (step : σ → σ)
    (h : σ → Except ε (Option π)) :
    ∀ (fuel : Nat) (st : LoopState σ π), 0 < st.cumul →
      loopF tick step h fuel st = none := by
  intro fuel
  induction fuel with
  | zero => intro st hc; simp [loopF, not_le.mpr hc]
  | succ fuel ih =>
      intro st hc
      have hneg : ¬(st.cumul - tick < 0) := by omega
      simp only [loopF, if_neg (not_le.mpr hc), if_neg hneg]
      exact ih _ (by show 0 < st.cumul - tick; omega)

/-- `n` steps landing the accumulator in `[0, tick)` below the total elapsed
time means `n` is the ceiling of `S / tick`. -/
theorem steps_eq_ceil {T S : Int} {n : Nat} (hT : 0 < T) (h1 : S ≤ (n : Int) * T)
    (h2 : (n : Int) * T < S + T) : (n : Int) = (S + T - 1) / T := by
  have hle : (n : Int) ≤ (S + T - 1) / T := (Int.le_ediv_iff_mul_le hT).mpr (by omega)
  have hlt : (S + T - 1) / T < (n : Int) + 1 := by
    rw [Int.ediv_lt_iff_lt_mul hT]
    nlinarith
  omega

/-- One frame of the pure counting instance, entered with a positive tick and
an accumulator above `-tick`: it completes, the final accumulator sits in
`(-tick, 0]` and equals `c + d` minus the steps taken times the tick. -/
theorem frameSteps_spec {T c d : Int} (hT : 0 < T) (hc : -T < c) (hd : 0 ≤ d) :
    ∃ st, frameSteps T c d = some st ∧
      -T < st.cumul ∧ st.cumul ≤ 0 ∧
      st.cumul = c + d - (st.steps : Int) * T ∧
      (0 < c + d → 1 ≤ st.steps) ∧ (c + d ≤ 0 → st.steps = 0 ∧ st.cumul = c + d) := by
  have htot := loopF_total hT pureStep pureSnap ((c + d).toNat)
    ⟨c + d, (), none, 0, 0⟩ (le_refl _)
  obtain ⟨r, hr⟩ := Option.isSome_iff_exists.mp htot
  cases r with
  | error e =>
      obtain ⟨m, hm⟩ := loopF_error pureStep pureSnap _ _ _ hr
      exact absurd hm (by simp [pureSnap])
  | ok st =>
      obtain ⟨n, hsteps, hcum, hle, heq0, hpos, _, _, _, _⟩ := loopF_spec pureStep pureSnap _ _ _ hr
      dsimp only at hsteps hcum heq0 hpos
      have hfr : frameSteps T c d = some st := by
        unfold frameSteps simulateF
        rw [hr]
      have hn : n = st.steps := by omega
      refine ⟨st, hfr, ?_, hle, ?_, ?_, ?_⟩
      · rcases le_or_lt (c + d) 0 with hle2 | hgt
        · have hst := heq0 hle2
          have : st.cumul = c + d := by rw [hst]
          omega
        · exact (hpos hgt).2
      · rw [hcum, hn]
      · intro hgt
        have := (hpos hgt).1
        omega
      · intro hle2
        have hst := heq0 hle2
        constructor
        · rw [hst]
        · rw [hst]

/-- A run of successive frames keeps the accumulator in `(-T, 0]` and each
frame adds its span to the simulated time: the accumulated steps satisfy
`c = c0 + Σ d - m·T` with the final accumulator `c`. -/
theorem runFrames_spec {T : Int} (hT : 0 < T) :
    ∀ (ds : List Int) (c0 : Int) (n0 : Nat), (∀ d ∈ ds, 0 ≤ d) → -T < c0 → c0 ≤ 0 →
      ∃ c m, runFrames T (c0, n0) ds = some (c, n0 + m) ∧
        -T < c ∧ c ≤ 0 ∧ c = c0 + ds.sum - (m : Int) * T := by
  intro ds
  induction ds with
  | nil =>
      intro c0 n0 _ hc0 hc0'
      exact ⟨c0, 0, by simp [runFrames], hc0, hc0', by simp⟩
  | cons d ds ih =>
      intro c0 n0 hds hc0 hc0'
      obtain ⟨st, hst, hst1, hst2, hst3, _, _⟩ := frameSteps_spec hT hc0 (hds d (by simp))
      obtain ⟨c, m', hrun, hc1, hc2, hc3⟩ :=
        ih st.cumul (n0 + st.steps) (fun x hx => hds x (by simp [hx])) hst1 hst2
      refine ⟨c, st.steps + m', ?_, hc1, hc2, ?_⟩
      · simp only [runFrames]
        rw [hst, ← Nat.add_assoc]
        exact hrun
      · rw [List.sum_cons, hc3, hst3]
        push_cast
        ring

/-- A successful `frameSteps` is a successful run of the underlying loop. -/
theorem frameSteps_imp {T c d : Int} {st : LoopState Unit Unit}
    (hfr : frameSteps T c d = some st) :
    simulateF T c d () pureStep pureSnap (c + d).toNat = some (.ok st) := by
  unfold frameSteps at hfr
  cases hx : simulateF T c d () pureStep pureSnap (c + d).toNat with
  | none => simp [hx] at hfr
  | some r =>
      cases r with
      | error e => simp [hx] at hfr
      | ok st2 =>
          simp [hx] at hfr
          subst hfr
          rfl

end Simul

namespace Simul

/-- Claim C1, counterexample: with tick `T = 10` and the single elapsed span
`d₁ = 4` from a fresh simulator, the code performs `1` step in the frame
(the loop body runs as soon as `cumul > 0`, landing `cumul` at `-6`), whereas
the claim's formula `⌊(Σ dᵢ) / T⌋ = ⌊4 / 10⌋ = 0` predicts none. -/
theorem claim_C1_counterexample :
    (totalSteps 10 [4]).map Prod.snd = some 1 ∧ ((4 : Int) / 10).toNat ≠ 1 := by
  decide

/-- Claim C1 (amended): `step` is invoked `⌈(cumul_before_elapse + d) / tick⌉`
times in a completed `simulate` call (`0` when the sum is non-positive), and
the cumulative step count after feeding non-negative spans `d₁,…,dₙ` at tick
`T > 0` is `⌈(Σ dᵢ) / T⌉ = (Σ dᵢ + T - 1) / T` — not `⌊(Σ dᵢ) / T⌋`; in
scenario S5 (tick 10, spans 4, 7, 9) the per-frame counts are 1, 1, 0 with
total 2 and final accumulator 0. -/
theorem claim_C1_amended :
    (∀ T c d : Int, 0 < T → -T < c → c ≤ 0 → 0 ≤ d →
      ∃ st, frameSteps T c d = some st ∧
        (0 < c + d → (st.steps : Int) = (c + d + T - 1) / T) ∧
        (c + d ≤ 0 → st.steps = 0)) ∧
    (∀ (T : Int) (ds : List Int), 0 < T → (∀ d ∈ ds, 0 ≤ d) →
      ∃ p, totalSteps T ds = some p ∧ (p.2 : Int) = (ds.sum + T - 1) / T) ∧
    totalSteps 10 [4, 7, 9] = some (0, 2) ∧
    (totalSteps 10 [4]).map Prod.snd = some 1 ∧
    (totalSteps 10 [4, 7]).map Prod.snd = some 2 := by
  refine ⟨?_, ?_, by decide, by decide, by decide⟩
  · intro T c d hT hc hc' hd
    obtain ⟨st, hfr, h1, h2, h3, h4, h5⟩ := frameSteps_spec hT hc hd
    refine ⟨st, hfr, ?_, fun hle => (h5 hle).1⟩
    intro hgt
    exact steps_eq_ceil hT (by linarith) (by linarith)
  · intro T ds hT hds
    obtain ⟨c, m, hrun, h1, h2, h3⟩ := runFrames_spec hT ds 0 0 hds (by omega) (by omega)
    refine ⟨(c, 0 + m), hrun, ?_⟩
    show ((0 + m : Nat) : Int) = _
    have hm : ((0 + m : Nat) : Int) = (m : Int) := by push_cast; ring
    rw [hm]
    exact steps_eq_ceil hT (by linarith) (by linarith)

/-- Witness for the amended claim C1, at tick 10 with spans 25 (one frame)
and 4, 7, 9 (three frames). -/
theorem claim_C1_amended_witness :
    (∃ st, frameSteps 10 0 25 = some st ∧
      ((0 : Int) < 0 + 25 → (st.steps : Int) = (0 + 25 + 10 - 1) / 10) ∧
      ((0 : Int) + 25 ≤ 0 → st.steps = 0)) ∧
    (∃ p, totalSteps 10 [4, 7, 9] = some p ∧
      (p.2 : Int) = ([4, 7, 9].sum + 10 - 1) / 10) :=
  ⟨claim_C1_amended.1 10 0 25 (by decide) (by decide) (by decide) (by decide),
   claim_C1_amended.2.1 10 [4, 7, 9] (by decide) (by decide)⟩

/-- Claim C4: within one `simulate` call the snapshot closure fires at most
once, exactly on the iteration whose subtraction makes the accumulator
negative, before that iteration's `step` (so on the state after
`steps - 1` steps); frames with zero steps take no snapshot, a `None` prior
makes the interpolation fall back to the current view; a snapshot `Err` is
returned as the `simulate` result. -/
theorem claim_C4 {σ π ε : Type} (T c d : Int) (s0 : σ) (step : σ → σ)
    (h : σ → Except ε (Option π)) (fuel : Nat) :
    (∀ st, simulateF T c d s0 step h fuel = some (.ok st) →
      st.snaps ≤ 1 ∧
      (st.snaps = 1 ↔ st.cumul < 0 ∧ 0 < c + d) ∧
      st.state = step^[st.steps] s0 ∧
      (st.snaps = 1 → 1 ≤ st.steps ∧ h (step^[st.steps - 1] s0) = .ok st.prior) ∧
      (st.steps = 0 → st.prior = none) ∧
      (∀ (γ : Type) (f : σ → γ) (g : π → γ), st.prior = none →
        priorView f g st = f st.state)) ∧
    (∀ e, simulateF T c d s0 step h fuel = some (.error e) →
      ∃ m, h (step^[m] s0) = .error e) := by
  constructor
  · intro st hrun
    obtain ⟨n, hsteps, hcum, hle, heq0, hpos, hstate, hsnaps, hsnap, hnop⟩ :=
      loopF_spec step h _ _ _ hrun
    dsimp only at hsteps hcum heq0 hpos hstate hsnaps hsnap hnop
    have hn : n = st.steps := by omega
    refine ⟨?_, ?_, ?_, ?_, ?_, ?_⟩
    · rw [hsnaps]; split_ifs <;> omega
    · rw [hsnaps]; split_ifs with hcond <;> simp [hcond]
    · rw [hstate, hn]
    · intro hs1
      have hcond : st.cumul < 0 ∧ 0 < c + d := by
        by_contra hno
        rw [hsnaps, if_neg hno] at hs1
        omega
      obtain ⟨h1, h2⟩ := hsnap hcond
      refine ⟨by omega, ?_⟩
      rw [← hn]
      exact h2
    · intro h0
      have hnocond : ¬(st.cumul < 0 ∧ 0 < c + d) := by
        intro hcc
        have := (hsnap hcc).1
        omega
      exact hnop hnocond
    · intro γ f g hp
      simp [priorView, hp]
  · intro e hrun
    obtain ⟨m, hm⟩ := loopF_error step h _ _ _ hrun
    exact ⟨m, hm⟩

/-- Witness for claim C4: the 25-span frame above takes exactly one snapshot
(of the state after two steps); and with an always-failing snapshot closure a
5-span frame propagates the error. -/
theorem claim_C4_witness :
    ((1 : ℕ) ≤ 1 ∧
     ((1 : ℕ) = 1 ↔ (-5 : Int) < 0 ∧ (0 : Int) < 0 + 25) ∧
     (3 : ℕ) = Nat.succ^[3] 0) ∧
    (∃ m, (fun _ : ℕ => Except.error (ε := Unit) (α := Option ℕ) ())
      (Nat.succ^[m] 0) = Except.error ()) :=
  ⟨(fun inst => ⟨inst.1, inst.2.1, inst.2.2.1⟩)
    ((claim_C4 10 0 25 (0 : ℕ) Nat.succ (fun n => Except.ok (ε := Unit) (some n)) 25).1
      ⟨-5, 3, some 2, 3, 1⟩ (by decide)),
   (claim_C4 10 0 5 (0 : ℕ) Nat.succ
      (fun _ : ℕ => Except.error (ε := Unit) (α := Option ℕ) ()) 5).2 () (by decide)⟩

/-- Claim C10: `Simulator::new` stores the tick without validation; with a
positive tick the loop terminates with fuel `(c + d).toNat`, performing
`⌈(c + d) / T⌉` iterations when `c + d > 0` and none otherwise; with a
non-positive tick a loop entered with positive accumulator never exits. -/
theorem claim_C10 :
    (∀ t : Int, Simulator.new t = ⟨t, 0, 0⟩) ∧
    (∀ (σ π ε : Type) (T c d : Int) (s0 : σ) (step : σ → σ) (h : σ → Except ε (Option π)),
      0 < T →
      (simulateF T c d s0 step h (c + d).toNat).isSome ∧
      (∀ st, simulateF T c d s0 step h (c + d).toNat = some (.ok st) →
        (0 < c + d → (st.steps : Int) = (c + d + T - 1) / T) ∧
        (c + d ≤ 0 → st.steps = 0))) ∧
    (∀ (σ π ε : Type) (T c : Int) (s0 : σ) (step : σ → σ) (h : σ → Except ε (Option π))
      (fuel : Nat), T ≤ 0 → 0 < c →
      loopF T step h fuel ⟨c, s0, none, 0, 0⟩ = none) := by
  refine ⟨fun t => rfl, ?_, ?_⟩
  · intro σ π ε T c d s0 step h hT
    refine ⟨loopF_total hT step h _ _ (le_refl _), ?_⟩
    intro st hrun
    obtain ⟨n, hsteps, hcum, hle, heq0, hpos, _, _, _, _⟩ := loopF_spec step h _ _ _ hrun
    dsimp only at hsteps hcum heq0 hpos
    have hn : n = st.steps := by omega
    constructor
    · intro hgt
      obtain ⟨h1, h2⟩ := hpos hgt
      have e1 : c + d ≤ (n : Int) * T := by linarith
      have e2 : (n : Int) * T < c + d + T := by linarith
      rw [← hn]
      exact steps_eq_ceil hT e1 e2
    · intro hle2
      have hst := heq0 hle2
      have : st.steps = 0 := by rw [hst]
      exact this
  · intro σ π ε T c s0 step h fuel hT hc
    exact loopF_diverge hT step h fuel _ hc

/-- Witness for claim C10: tick 10 with span 25 terminates in 3 steps;
tick `-3` with accumulator 4 exhausts any fuel. -/
theorem claim_C10_witness :
    Simulator.new 7 = ⟨7, 0, 0⟩ ∧
    (simulateF 10 0 25 (0 : ℕ) Nat.succ (fun n => Except.ok (ε := Unit) (some n))
      (((0 : Int) + 25).toNat)).isSome ∧
    loopF (-3) pureStep pureSnap 5 ⟨4, (), none, 0, 0⟩ = none :=
  ⟨claim_C10.1 7,
   (claim_C10.2.1 ℕ ℕ Unit 10 0 25 0 Nat.succ (fun n => Except.ok (ε := Unit) (some n))
     (by decide)).1,
   claim_C10.2.2 Unit Unit Unit (-3) 4 () pureStep pureSnap 5 (by decide) (by decide)⟩

end Simul

namespace Ecs

/-- Setting index `k` makes `get?` at `k` return the new value. -/
theorem listGet_set_self {α : Type} {l : List α} {k : Nat} (a : α) (h : k < l.length) :
    (l.set k a).get? k = some a := by
  induction l generalizing k with
  | nil => simp at h
  | cons b bs ih =>
      cases k with
      | zero => rfl
      | succ k => exact ih (by simpa using h)

/-- Setting index `k` leaves `get?` at other indices unchanged. -/
theorem listGet_set_ne {α : Type} {l : List α} {k j : Nat} (a : α) (h : k ≠ j) :
    (l.set k a).get? j = l.get? j := by
  induction l generalizing k j with
  | nil => rfl
  | cons b bs ih =>
      cases k with
      | zero =>
          cases j with
          | zero => exact absurd rfl h
          | succ j => rfl
      | succ k =>
          cases j with
          | zero => rfl
          | succ j => exact ih (by omega)

/-- Writing back the value already present leaves the list unchanged. -/
theorem listSet_self {α : Type} {l : List α} {k : Nat} {a : α} (h : l.get? k = some a) :
    l.set k a = l := by
  induction l generalizing k with
  | nil => rfl
  | cons b bs ih =>
      cases k with
      | zero => simp_all
      | succ k => simpa using ih (by simpa using h)

/-- Set bit `k` is set. -/
theorem testBit_setBit_self (m k : Nat) : (setBit m k).testBit k = true := by
  simp [setBit, Nat.testBit_or]

/-- Setting bit `k` does not change other bits. -/
theorem testBit_setBit_ne (m : Nat) {j k : Nat} (h : j ≠ k) :
    (setBit m k).testBit j = m.testBit j := by
  simp [setBit, Nat.testBit_or, Nat.testBit_two_pow_of_ne (Ne.symm h)]

/-- Cleared bit `k` is clear. -/
theorem testBit_clrBit_self (m k : Nat) : (clrBit m k).testBit k = false := by
  unfold clrBit
  split_ifs with hk
  · simp [Nat.testBit_xor, hk]
  · simpa using hk

/-- Clearing bit `k` does not change other bits. -/
theorem testBit_clrBit_ne (m : Nat) {j k : Nat} (h : j ≠ k) :
    (clrBit m k).testBit j = m.testBit j := by
  unfold clrBit
  split_ifs with hk
  · simp [Nat.testBit_xor, Nat.testBit_two_pow_of_ne (Ne.symm h)]
  · rfl

/-- Setting a bit below `n` preserves the bound `2 ^ n`. -/
theorem setBit_lt {m k n : Nat} (hm : m < 2 ^ n) (hk : k < n) : setBit m k < 2 ^ n :=
  Nat.or_lt_two_pow hm (Nat.pow_lt_pow_right (by norm_num) hk)

/-- Clearing a bit preserves the bound `2 ^ n`. -/
theorem clrBit_lt {m k n : Nat} (hm : m < 2 ^ n) (hk : k < n) : clrBit m k < 2 ^ n := by
  unfold clrBit
  split_ifs
  · exact Nat.xor_lt_two_pow hm (Nat.pow_lt_pow_right (by norm_num) hk)
  · exact hm

/-- `findC` fails exactly when no entry carries the type id. -/
theorem findC_eq_none {l : List RegEntry} {tid : Nat} :
    findC l tid = none ↔ ∀ ent ∈ l, ent.tid ≠ tid := by
  induction l with
  | nil => simp [findC]
  | cons e es ih =>
      by_cases he : e.tid = tid
      · simp [findC, he]
      · simp [findC, he, Option.map_eq_none', ih]

/-- A `findC` hit returns the entry at its position, carrying the type id. -/
theorem findC_spec {l : List RegEntry} {tid k : Nat} {ent : RegEntry}
    (h : findC l tid = some (k, ent)) : l.get? k = some ent ∧ ent.tid = tid := by
  induction l generalizing k with
  | nil => simp [findC] at h
  | cons e es ih =>
      unfold findC at h
      split_ifs at h with he
      · simp only [Option.some.injEq, Prod.mk.injEq] at h
        obtain ⟨rfl, rfl⟩ := h
        exact ⟨rfl, he⟩
      · cases hx : findC es tid with
        | none => rw [hx] at h; simp at h
        | some p =>
            obtain ⟨k2, ent2⟩ := p
            rw [hx] at h
            simp only [Option.map_some', Option.some.injEq, Prod.mk.injEq] at h
            obtain ⟨h1, h2⟩ := h
            subst h2
            obtain ⟨hget, htid⟩ := ih hx
            subst h1
            exact ⟨hget, htid⟩

/-- With distinct type ids, the entry at position `k` is found at `k`. -/
theorem findC_of_get {l : List RegEntry} (hnd : (l.map RegEntry.tid).Nodup) {k : Nat}
    {ent : RegEntry} (h : l.get? k = some ent) : findC l ent.tid = some (k, ent) := by
  induction l generalizing k with
  | nil => simp at h
  | cons e es ih =>
      cases k with
      | zero =>
          simp only [List.get?] at h
          injection h with h
          subst h
          simp [findC]
      | succ k =>
          simp only [List.get?] at h
          have hmem : ent ∈ es := by
            rcases List.get?_eq_some.mp h with ⟨hk, hget⟩
            exact hget ▸ List.get_mem es _ _
          have hne : e.tid ≠ ent.tid := by
            intro hcontra
            have : e.tid ∈ es.map RegEntry.tid := hcontra ▸ List.mem_map_of_mem _ hmem
            exact (List.nodup_cons.mp hnd).1 this
          have := ih (List.nodup_cons.mp hnd).2 h
          simp [findC, hne, this]

end Ecs

namespace Ecs

/-- A freshly replicated column holds no valid value. -/
theorem slotAt_replicate (n i : Nat) : slotAt (List.replicate n none) i = none := by
  unfold slotAt
  rw [List.get?_eq_getElem?, List.getElem?_replicate]
  split_ifs <;> rfl

/-- `with_capacity` establishes the invariant. -/
theorem inv_init (cap : Nat) : Inv (Store.init cap) := by
  constructor
  · intro ent h
    simp [Store.init] at h
  · show (List.length [] : Nat) ≤ componentN
    simp [componentN]
  · simp [Store.init]
  · intro en h
    simp only [Store.init] at h
    have he := List.eq_of_mem_replicate h
    subst he
    show (0 : Nat) < 2 ^ (List.length [])
    norm_num
  · intro en h
    simp only [Store.init] at h
    have he := List.eq_of_mem_replicate h
    subst he
    rfl
  · intro k ent hk
    simp [Store.init] at hk

/-- `reg` preserves the invariant and never touches the entity records. -/
theorem reg_inv {s : Store} {tid sz : Nat} (hinv : Inv s) :
    Inv (s.reg tid sz).1 ∧ (s.reg tid sz).1.entities = s.entities := by
  cases hf : findC s.registry tid with
  | some p =>
      simp only [Store.reg, hf]
      exact ⟨hinv, trivial⟩
  | none =>
      simp only [Store.reg, hf]
      by_cases hlen : s.registry.length < componentN
      · rw [if_pos hlen]
        refine ⟨⟨?_, ?_, ?_, ?_, ?_, ?_⟩, rfl⟩
        · intro ent h
          rcases List.mem_append.mp h with h1 | h2
          · exact hinv.colLen ent h1
          · simp only [List.mem_singleton] at h2
            subst h2
            simp
        · show (s.registry ++ [(⟨tid, sz, List.replicate s.entities.length none⟩ : RegEntry)]).length ≤ componentN
          rw [List.length_append]
          simp only [List.length_singleton]
          omega
        · show ((s.registry ++ [(⟨tid, sz, List.replicate s.entities.length none⟩ : RegEntry)]).map RegEntry.tid).Nodup
          rw [List.map_append, List.nodup_append]
          refine ⟨hinv.tidNodup, by simp, ?_⟩
          intro a ha hb
          simp only [List.map_cons, List.map_nil, List.mem_singleton] at hb
          subst hb
          obtain ⟨ent, hent, htid⟩ := List.mem_map.mp ha
          exact (findC_eq_none.mp hf ent hent) htid
        · intro en h
          show en.mask < 2 ^ (s.registry ++ [(⟨tid, sz, List.replicate s.entities.length none⟩ : RegEntry)]).length
          rw [List.length_append]
          have hb := hinv.maskBound en h
          have hmono : (2 : Nat) ^ s.registry.length ≤ 2 ^ (s.registry.length + 1) :=
            Nat.pow_le_pow_right (by norm_num) (by omega)
          simp only [List.length_singleton]
          omega
        · intro en h
          exact hinv.ver0 en h
        · intro k ent hk i en hi
          have hkb : k < s.registry.length + 1 := by
            rcases List.get?_eq_some.mp hk with ⟨hlt, _⟩
            simpa using hlt
          rcases Nat.lt_or_ge k s.registry.length with hlt | hge
          · rw [List.get?_append hlt] at hk
            exact hinv.sync k ent hk i en hi
          · have hkeq : k = s.registry.length := by omega
            subst hkeq
            rw [List.get?_concat_length] at hk
            injection hk with hk
            subst hk
            constructor
            · intro hbit
              have hfalse : en.mask.testBit s.registry.length = false :=
                Nat.testBit_lt_two_pow (hinv.maskBound en (List.get?_mem hi))
              rw [hfalse] at hbit
              exact absurd hbit (by simp)
            · intro hslot
              rw [show (⟨tid, sz, List.replicate s.entities.length none⟩ : RegEntry).col
                    = List.replicate s.entities.length none from rfl,
                  slotAt_replicate] at hslot
              exact absurd hslot (by simp)
      · rw [if_neg hlen]
        exact ⟨hinv, rfl⟩

/-- Core preservation argument for `modify`'s writing branches: updating
entity `i`'s mask together with column `k`, such that bit `k` tracks slot `i`
and everything else is untouched, preserves the invariant. -/
theorem modify_core_inv {s : Store} {k : Nat} {ent : RegEntry} {i : Nat} {en : Enty}
    (hinv : Inv s) (hkget : s.registry.get? k = some ent) (hi : s.entities.get? i = some en)
    (maskNew : Nat) (colNew : List (Option Nat))
    (hlen : colNew.length = ent.col.length)
    (hbitk : maskNew.testBit k = (slotAt colNew i).isSome)
    (hbit : ∀ j, j ≠ k → maskNew.testBit j = en.mask.testBit j)
    (hslot : ∀ i2, i2 ≠ i → slotAt colNew i2 = slotAt ent.col i2)
    (hbound : maskNew < 2 ^ s.registry.length) :
    Inv ⟨s.entities.set i ⟨maskNew, en.version⟩,
         s.registry.set k { ent with col := colNew }⟩ := by
  obtain ⟨hklt, -⟩ := List.get?_eq_some.mp hkget
  obtain ⟨hilt, -⟩ := List.get?_eq_some.mp hi
  constructor
  · intro ent2 hmem
    show ent2.col.length = (s.entities.set i _).length
    rw [List.length_set]
    rcases List.mem_or_eq_of_mem_set hmem with h1 | h2
    · exact hinv.colLen ent2 h1
    · subst h2
      show colNew.length = s.entities.length
      rw [hlen]
      exact hinv.colLen ent (List.get?_mem hkget)
  · show (s.registry.set k _).length ≤ componentN
    rw [List.length_set]
    exact hinv.regLen
  · show ((s.registry.set k _).map RegEntry.tid).Nodup
    rw [List.map_set]
    have hmap : (s.registry.map RegEntry.tid).get? k = some ent.tid := by
      rw [List.get?_map, hkget]
      rfl
    rw [show RegEntry.tid { ent with col := colNew } = ent.tid from rfl, listSet_self hmap]
    exact hinv.tidNodup
  · intro en2 hmem
    show en2.mask < 2 ^ (s.registry.set k _).length
    rw [List.length_set]
    rcases List.mem_or_eq_of_mem_set hmem with h1 | h2
    · exact hinv.maskBound en2 h1
    · subst h2
      exact hbound
  · intro en2 hmem
    rcases List.mem_or_eq_of_mem_set hmem with h1 | h2
    · exact hinv.ver0 en2 h1
    · subst h2
      exact hinv.ver0 en (List.get?_mem hi)
  · intro k2 ent2 hk2 i2 en2 hi2
    by_cases hkk : k2 = k
    · subst hkk
      rw [listGet_set_self _ hklt] at hk2
      injection hk2 with hk2
      subst hk2
      by_cases hii : i2 = i
      · subst hii
        rw [listGet_set_self _ hilt] at hi2
        injection hi2 with hi2
        subst hi2
        show maskNew.testBit k2 = true ↔ _
        rw [hbitk]
      · rw [listGet_set_ne _ (fun hx => hii hx.symm)] at hi2
        show en2.mask.testBit k2 = true ↔ (slotAt colNew i2).isSome = true
        rw [hslot i2 hii]
        exact hinv.sync k2 ent hkget i2 en2 hi2
    · rw [listGet_set_ne _ (fun hx => hkk hx.symm)] at hk2
      by_cases hii : i2 = i
      · subst hii
        rw [listGet_set_self _ hilt] at hi2
        injection hi2 with hi2
        subst hi2
        show maskNew.testBit k2 = true ↔ _
        rw [hbit k2 hkk]
        exact hinv.sync k2 ent2 hk2 i2 en hi
      · rw [listGet_set_ne _ (fun hx => hii hx.symm)] at hi2
        exact hinv.sync k2 ent2 hk2 i2 en2 hi2

end Ecs

namespace Ecs

/-- `modify` preserves the invariant. -/
theorem modify_inv {s : Store} {tid : Nat} {e : Entity} {f : Option Nat → Option Nat}
    {s1 : Store} {b : Bool} (hinv : Inv s) (h : s.modify tid e f = .ok (s1, b)) :
    Inv s1 := by
  cases hf : findC s.registry tid with
  | none =>
      simp only [Store.modify, hf, Except.ok.injEq, Prod.mk.injEq] at h
      obtain ⟨h1, -⟩ := h
      subst h1
      exact hinv
  | some p =>
      obtain ⟨k, ent⟩ := p
      cases hi : s.entities.get? e.index with
      | none =>
          simp only [Store.modify, hf, hi] at h
          exact absurd h (by simp)
      | some en =>
          by_cases hv : e.version ≠ en.version
          · simp only [Store.modify, hf, hi, if_pos hv, Except.ok.injEq, Prod.mk.injEq] at h
            obtain ⟨h1, -⟩ := h
            subst h1
            exact hinv
          · simp only [Store.modify, hf, hi, if_neg hv] at h
            obtain ⟨hkget, htid⟩ := findC_spec hf
            have hcolLen := hinv.colLen ent (List.get?_mem hkget)
            obtain ⟨hklt, -⟩ := List.get?_eq_some.mp hkget
            obtain ⟨hilt, -⟩ := List.get?_eq_some.mp hi
            have hmem := List.get?_mem hi
            have hsync := hinv.sync k ent hkget e.index en hi
            cases hres : f (if en.mask.testBit k then slotAt ent.col e.index else none) with
            | none =>
                rw [hres] at h
                simp only [Except.ok.injEq, Prod.mk.injEq] at h
                obtain ⟨h1, -⟩ := h
                subst h1
                refine modify_core_inv hinv hkget hi _ _ ?_ ?_ ?_ ?_ ?_
                · by_cases hp : en.mask.testBit k <;> simp [hp, List.length_set]
                · by_cases hp : en.mask.testBit k
                  · simp only [if_pos hp]
                    rw [testBit_clrBit_self]
                    unfold slotAt
                    rw [listGet_set_self (none : Option Nat) (hcolLen ▸ hilt)]
                    rfl
                  · simp only [if_neg hp]
                    have hfalse : (slotAt ent.col e.index).isSome = false := by
                      cases hb : (slotAt ent.col e.index).isSome with
                      | false => rfl
                      | true => exact absurd (hsync.mpr hb) hp
                    rw [hfalse]
                    simpa using hp
                · intro j hj
                  by_cases hp : en.mask.testBit k
                  · simp only [if_pos hp]
                    exact testBit_clrBit_ne en.mask hj
                  · simp only [if_neg hp]
                · intro i2 hi2
                  by_cases hp : en.mask.testBit k
                  · simp only [if_pos hp]
                    unfold slotAt
                    rw [listGet_set_ne _ (fun hx => hi2 hx.symm)]
                  · simp only [if_neg hp]
                · by_cases hp : en.mask.testBit k
                  · simp only [if_pos hp]
                    exact clrBit_lt (hinv.maskBound en hmem) hklt
                  · simp only [if_neg hp]
                    exact hinv.maskBound en hmem
            | some x =>
                rw [hres] at h
                simp only [Except.ok.injEq, Prod.mk.injEq] at h
                obtain ⟨h1, -⟩ := h
                subst h1
                refine modify_core_inv hinv hkget hi _ _ ?_ ?_ ?_ ?_ ?_
                · by_cases hp : en.mask.testBit k <;> simp [hp, List.length_set]
                · rw [testBit_setBit_self]
                  unfold slotAt
                  have hlt2 : e.index <
                      (if en.mask.testBit k then ent.col.set e.index none else ent.col).length := by
                    by_cases hp : en.mask.testBit k <;>
                      simp [hp, List.length_set, hcolLen ▸ hilt]
                  rw [listGet_set_self (some x) hlt2]
                  rfl
                · intro j hj
                  rw [testBit_setBit_ne _ hj]
                  by_cases hp : en.mask.testBit k
                  · simp only [if_pos hp]
                    exact testBit_clrBit_ne en.mask hj
                  · simp only [if_neg hp]
                · intro i2 hi2
                  unfold slotAt
                  rw [listGet_set_ne _ (fun hx => hi2 hx.symm)]
                  by_cases hp : en.mask.testBit k
                  · simp only [if_pos hp]
                    rw [listGet_set_ne _ (fun hx => hi2 hx.symm)]
                  · simp only [if_neg hp]
                · apply setBit_lt _ hklt
                  by_cases hp : en.mask.testBit k
                  · simp only [if_pos hp]
                    exact clrBit_lt (hinv.maskBound en hmem) hklt
                  · simp only [if_neg hp]
                    exact hinv.maskBound en hmem

/-- Scripts preserve the invariant. -/
theorem run_inv : ∀ (ops : List Op) (s0 s : Store), Inv s0 → run s0 ops = .ok s → Inv s := by
  intro ops
  induction ops with
  | nil =>
      intro s0 s hinv h
      simp only [run, Except.ok.injEq] at h
      subst h
      exact hinv
  | cons op ops ih =>
      intro s0 s hinv h
      cases op with
      | reg tid sz =>
          simp only [run] at h
          exact ih _ _ (reg_inv hinv).1 h
      | mod tid e f =>
          simp only [run] at h
          cases hm : s0.modify tid e f with
          | error u =>
              rw [hm] at h
              simp at h
          | ok p =>
              obtain ⟨s2, b⟩ := p
              rw [hm] at h
              exact ih _ _ (modify_inv hinv hm) h

end Ecs

namespace Ecs

/-- `modify` on an unregistered type is a silent no-op that never reaches the
closure. -/
theorem modify_unreg {s : Store} {tid : Nat} (e : Entity) (f : Option Nat → Option Nat)
    (hf : findC s.registry tid = none) : s.modify tid e f = .ok (s, false) := by
  simp only [Store.modify, hf]

/-- `modify` through a stale handle is a silent no-op that never reaches the
closure. -/
theorem modify_stale {s : Store} {tid k : Nat} {ent : RegEntry} {en : Enty} (e : Entity)
    (f : Option Nat → Option Nat) (hf : findC s.registry tid = some (k, ent))
    (hi : s.entities.get? e.index = some en) (hv : e.version ≠ en.version) :
    s.modify tid e f = .ok (s, false) := by
  simp only [Store.modify, hf, hi, if_pos hv]

/-- Claim C2: in every store reachable by a script from `with_capacity`, for
every registered slot `k` and entity `i`: mask bit `k` is set iff column `k`
holds a valid value at slot `i`; `get` through a live handle returns `Some`
iff the bit is set; and a `modify` through a live handle leaves the bit set
iff the closure returned a full option (on the current content). -/
theorem claim_C2 (cap : Nat) (ops : List Op) (s : Store)
    (hrun : run (Store.init cap) ops = .ok s) :
    ∀ k ent, s.registry.get? k = some ent → ∀ i en, s.entities.get? i = some en →
      ((en.mask.testBit k ↔ (slotAt ent.col i).isSome) ∧
       ((∃ v, s.get ent.tid ⟨i, en.version⟩ = .ok (some v)) ↔ en.mask.testBit k) ∧
       (∀ f s1 invoked, s.modify ent.tid ⟨i, en.version⟩ f = .ok (s1, invoked) →
         invoked = true ∧
         ∀ en1, s1.entities.get? i = some en1 →
           (en1.mask.testBit k ↔
             (f (if en.mask.testBit k then slotAt ent.col i else none)).isSome))) := by
  have hinv := run_inv ops _ s (inv_init cap) hrun
  intro k ent hk i en hi
  have hfind : findC s.registry ent.tid = some (k, ent) := findC_of_get hinv.tidNodup hk
  have hsync := hinv.sync k ent hk i en hi
  obtain ⟨hilt, -⟩ := List.get?_eq_some.mp hi
  refine ⟨hsync, ⟨?_, ?_⟩, ?_⟩
  · rintro ⟨v, hv⟩
    by_cases hbit : en.mask.testBit k
    · exact hbit
    · exfalso
      simp only [Store.get, hfind, hi] at hv
      rw [if_neg (by simp [hbit])] at hv
      exact absurd hv (by simp)
  · intro hbit
    obtain ⟨v, hv⟩ := Option.isSome_iff_exists.mp (hsync.mp hbit)
    refine ⟨v, ?_⟩
    simp only [Store.get, hfind, hi]
    rw [if_pos ⟨trivial, hbit⟩, hv]
  · intro f s1 invoked hmod
    simp only [Store.modify, hfind, hi] at hmod
    rw [if_neg (by simp : ¬((⟨i, en.version⟩ : Entity).version ≠ en.version))] at hmod
    cases hres : f (if en.mask.testBit k then slotAt ent.col i else none) with
    | none =>
        rw [hres] at hmod
        simp only [Except.ok.injEq, Prod.mk.injEq] at hmod
        obtain ⟨h1, h2⟩ := hmod
        subst h1
        subst h2
        refine ⟨rfl, ?_⟩
        intro en1 hen1
        rw [listGet_set_self _ hilt] at hen1
        injection hen1 with hen1
        subst hen1
        show (if en.mask.testBit k then clrBit en.mask k else en.mask).testBit k = true ↔
          (none : Option Nat).isSome = true
        by_cases hp : en.mask.testBit k
        · simp [hp, testBit_clrBit_self]
        · simp [hp]
    | some x =>
        rw [hres] at hmod
        simp only [Except.ok.injEq, Prod.mk.injEq] at hmod
        obtain ⟨h1, h2⟩ := hmod
        subst h1
        subst h2
        refine ⟨rfl, ?_⟩
        intro en1 hen1
        rw [listGet_set_self _ hilt] at hen1
        injection hen1 with hen1
        subst hen1
        show (setBit (if en.mask.testBit k then clrBit en.mask k else en.mask) k).testBit k
          = true ↔ (some x : Option Nat).isSome = true
        simp [testBit_setBit_self]

/-- Witness for claim C2 in the store reached by registering type 0 (size 4)
and inserting value 7 for entity 0. -/
theorem claim_C2_witness :
    ((1 : Nat).testBit 0 ↔ (some 7 : Option Nat).isSome) ∧
    ((∃ v, (⟨[⟨1, 0⟩], [⟨0, 4, [some 7]⟩]⟩ : Store).get 0 ⟨0, 0⟩ = .ok (some v)) ↔
      (1 : Nat).testBit 0) ∧
    ((true : Bool) = true ∧ ((0 : Nat).testBit 0 ↔ (none : Option Nat).isSome)) := by
  have happ := claim_C2 1 [.reg 0 4, .mod 0 ⟨0, 0⟩ (fun _ => some 7)]
    ⟨[⟨1, 0⟩], [⟨0, 4, [some 7]⟩]⟩ (by decide) 0 ⟨0, 4, [some 7]⟩ (by decide) 0 ⟨1, 0⟩ (by decide)
  have hmod := happ.2.2 (fun _ => none) ⟨[⟨0, 0⟩], [⟨0, 4, [none]⟩]⟩ true (by decide)
  exact ⟨happ.1, happ.2.1, hmod.1, hmod.2 ⟨0, 0⟩ (by decide)⟩

/-- Claim C5, counterexample: `get` on a registered type with an
out-of-bounds handle index panics (the unchecked slice index
`storage()[k]`), it does not return `None` as claimed. -/
theorem claim_C5_counterexample :
    (Store.mk [⟨0, 0⟩] [⟨0, 4, [none]⟩]).get 0 ⟨5, 0⟩ = .error () ∧
    (Store.mk [⟨0, 0⟩] [⟨0, 4, [none]⟩]).get 0 ⟨5, 0⟩ ≠ .ok none := by
  decide

/-- Claim C5 (amended): `get` returns `None` for an unregistered type (any
index); for a registered type it panics when `index ≥ cap`; otherwise it
returns `None` on version mismatch or clear mask bit, and the column slot
when the handle is live and the bit is set. -/
theorem claim_C5_amended :
    (∀ (s : Store) (tid : Nat) (e : Entity), findC s.registry tid = none →
      s.get tid e = .ok none) ∧
    (∀ (s : Store) (tid : Nat) (e : Entity) (k : Nat) (ent : RegEntry),
      findC s.registry tid = some (k, ent) → s.entities.length ≤ e.index →
      s.get tid e = .error ()) ∧
    (∀ (s : Store) (tid : Nat) (e : Entity) (k : Nat) (ent : RegEntry) (en : Enty),
      findC s.registry tid = some (k, ent) → s.entities.get? e.index = some en →
      (((e.version = en.version ∧ en.mask.testBit k) →
        s.get tid e = .ok (slotAt ent.col e.index)) ∧
       (¬(e.version = en.version ∧ en.mask.testBit k) → s.get tid e = .ok none))) := by
  refine ⟨?_, ?_, ?_⟩
  · intro s tid e hf
    simp only [Store.get, hf]
  · intro s tid e k ent hf hlen
    have hnone : s.entities.get? e.index = none := List.get?_len_le hlen
    simp only [Store.get, hf, hnone]
  · intro s tid e k ent en hf hi
    constructor
    · intro hcond
      simp only [Store.get, hf, hi, if_pos hcond]
    · intro hcond
      simp only [Store.get, hf, hi, if_neg hcond]

/-- Witness for the amended claim C5: all four branches at concrete stores. -/
theorem claim_C5_amended_witness :
    (⟨[⟨0, 0⟩], []⟩ : Store).get 3 ⟨0, 0⟩ = .ok none ∧
    (⟨[⟨0, 0⟩], [⟨0, 4, [none]⟩]⟩ : Store).get 0 ⟨5, 0⟩ = .error () ∧
    (⟨[⟨0, 0⟩], [⟨0, 4, [none]⟩]⟩ : Store).get 0 ⟨0, 9⟩ = .ok none ∧
    (⟨[⟨1, 0⟩], [⟨0, 4, [some 7]⟩]⟩ : Store).get 0 ⟨0, 0⟩ = .ok (slotAt [some 7] 0) :=
  ⟨claim_C5_amended.1 ⟨[⟨0, 0⟩], []⟩ 3 ⟨0, 0⟩ (by decide),
   claim_C5_amended.2.1 ⟨[⟨0, 0⟩], [⟨0, 4, [none]⟩]⟩ 0 ⟨5, 0⟩ 0 ⟨0, 4, [none]⟩
     (by decide) (by decide),
   (claim_C5_amended.2.2 ⟨[⟨0, 0⟩], [⟨0, 4, [none]⟩]⟩ 0 ⟨0, 9⟩ 0 ⟨0, 4, [none]⟩ ⟨0, 0⟩
     (by decide) (by decide)).2 (by decide),
   (claim_C5_amended.2.2 ⟨[⟨1, 0⟩], [⟨0, 4, [some 7]⟩]⟩ 0 ⟨0, 0⟩ 0 ⟨0, 4, [some 7]⟩ ⟨1, 0⟩
     (by decide) (by decide)).1 (by decide)⟩

end Ecs

namespace Ecs

/-- Claim C6, counterexample: registering an already-registered type does
*not* fail — `insert_with` hands the candidate back to the closure for
cleanup and returns the existing slot, so `reg` returns success and the store
is unchanged. -/
theorem claim_C6_counterexample :
    ((((Store.init 1).reg 0 4).1.reg 0 4).2.1 = true ∧
     (((Store.init 1).reg 0 4).1.reg 0 4).1 = ((Store.init 1).reg 0 4).1) := by
  decide

set_option maxRecDepth 8192 in
/-- Claim C6 (amended): `reg` on an already-registered type succeeds, leaving
the store unchanged and deallocating the candidate column; it fails exactly
when the type is new and the registry already holds 64 entries — 64 distinct
zero-sized types register successfully and the 65th fails — and on failure a
non-zero-sized candidate column is deallocated before the error returns. -/
theorem claim_C6_amended :
    (∀ (s : Store) (tid sz k : Nat) (ent : RegEntry), findC s.registry tid = some (k, ent) →
      s.reg tid sz = (s, true, if sz = 0 then [] else [.alloc, .dealloc])) ∧
    (∀ (s : Store) (tid sz : Nat), findC s.registry tid = none →
      componentN ≤ s.registry.length →
      s.reg tid sz = (s, false, if sz = 0 then [] else [.alloc, .dealloc])) ∧
    (((List.range 65).foldl (fun (p : Store × List Bool) t =>
        ((p.1.reg t 0).1, p.2 ++ [(p.1.reg t 0).2.1])) (Store.init 1, [])).2 =
      List.replicate 64 true ++ [false]) := by
  refine ⟨?_, ?_, by decide⟩
  · intro s tid sz k ent hf
    simp only [Store.reg, hf]
  · intro s tid sz hf hfull
    simp only [Store.reg, hf]
    rw [if_neg (by omega)]

/-- Witness for the amended claim C6: a duplicate registration of a
non-zero-sized type, and a registration into a full registry. -/
theorem claim_C6_amended_witness :
    ((Store.init 1).reg 0 4).1.reg 0 4 =
      (((Store.init 1).reg 0 4).1, true, if 4 = 0 then [] else [.alloc, .dealloc]) ∧
    (Store.mk [] ((List.range 64).map (fun t => ⟨t, 0, []⟩))).reg 99 4 =
      (Store.mk [] ((List.range 64).map (fun t => ⟨t, 0, []⟩)), false,
        if 4 = 0 then [] else [.alloc, .dealloc]) :=
  ⟨claim_C6_amended.1 ((Store.init 1).reg 0 4).1 0 4 0 ⟨0, 4, [none]⟩ (by decide),
   claim_C6_amended.2.1 (Store.mk [] ((List.range 64).map (fun t => ⟨t, 0, []⟩))) 99 4
     (by decide) (by decide)⟩

/-- Claim C7, code bug: a zero-sized component type has stride 0, so the
`Ptrs` iterator in `Drop` is empty and its destructor is never invoked even
though the presence bit is set — the identical script with a non-zero-sized
type drops the component exactly once.  The spec requires the destructor to
run exactly once "including components of zero-sized types". -/
theorem claim_C7_code_bug :
    (run (Store.init 1) [.reg 0 0, .mod 0 ⟨0, 0⟩ (fun _ => some 5)]).map dropCalls
      = .ok [] ∧
    (run (Store.init 1) [.reg 0 0, .mod 0 ⟨0, 0⟩ (fun _ => some 5)]).map
      (fun s => s.entities.map Enty.mask) = .ok [1] ∧
    (run (Store.init 1) [.reg 0 8, .mod 0 ⟨0, 0⟩ (fun _ => some 5)]).map dropCalls
      = .ok [(0, 0)] := by
  decide

/-- Claim C8: `modify` through a handle whose version mismatches the stored
entity, or with an unregistered component type, leaves the store untouched
and never invokes the closure (the `false` flag); `get` takes the store by
shared borrow and returns no store, so a stale `get` likewise writes
nothing. -/
theorem claim_C8 :
    (∀ (s : Store) (tid : Nat) (e : Entity) (f : Option Nat → Option Nat),
      findC s.registry tid = none → s.modify tid e f = .ok (s, false)) ∧
    (∀ (s : Store) (tid : Nat) (e : Entity) (f : Option Nat → Option Nat) (k : Nat)
      (ent : RegEntry) (en : Enty), findC s.registry tid = some (k, ent) →
      s.entities.get? e.index = some en → e.version ≠ en.version →
      s.modify tid e f = .ok (s, false)) :=
  ⟨fun _ _ e f hf => modify_unreg e f hf,
   fun _ _ e f _ _ _ hf hi hv => modify_stale e f hf hi hv⟩

/-- Witness for claim C8: an unregistered type and a stale handle, each on a
concrete store. -/
theorem claim_C8_witness :
    (Store.init 1).modify 5 ⟨0, 0⟩ (fun _ => some 1) = .ok (Store.init 1, false) ∧
    ((Store.init 1).reg 0 4).1.modify 0 ⟨0, 7⟩ (fun _ => some 1)
      = .ok (((Store.init 1).reg 0 4).1, false) :=
  ⟨claim_C8.1 (Store.init 1) 5 ⟨0, 0⟩ (fun _ => some 1) (by decide),
   claim_C8.2 ((Store.init 1).reg 0 4).1 0 ⟨0, 7⟩ (fun _ => some 1) 0 ⟨0, 4, [none]⟩ ⟨0, 0⟩
     (by decide) (by decide) (by decide)⟩

/-- Claim C9: every version is 0 after `with_capacity` and stays 0 under
every public operation (no operation increments a version and no destroy is
exposed), so a version-0 handle stays live forever and any handle with a
non-zero version is permanently stale. -/
theorem claim_C9 (cap : Nat) (ops : List Op) (s : Store)
    (hrun : run (Store.init cap) ops = .ok s) :
    (∀ en ∈ (Store.init cap).entities, en.version = 0) ∧
    (∀ en ∈ s.entities, en.version = 0) ∧
    (∀ (tid : Nat) (e : Entity) (f : Option Nat → Option Nat) (en : Enty),
      s.entities.get? e.index = some en → e.version ≠ 0 →
      s.modify tid e f = .ok (s, false)) := by
  have hinv := run_inv ops _ s (inv_init cap) hrun
  refine ⟨(inv_init cap).ver0, hinv.ver0, ?_⟩
  intro tid e f en hi hv
  cases hf : findC s.registry tid with
  | none => exact modify_unreg e f hf
  | some p =>
      obtain ⟨k, ent⟩ := p
      refine modify_stale e f hf hi ?_
      have := hinv.ver0 en (List.get?_mem hi)
      omega

/-- Witness for claim C9 on the store reached by one registration and one
insertion: the surviving version is 0, and a version-9 handle no-ops. -/
theorem claim_C9_witness :
    run (Store.init 1) [.reg 0 4, .mod 0 ⟨0, 0⟩ (fun _ => some 7)]
      = .ok ⟨[⟨1, 0⟩], [⟨0, 4, [some 7]⟩]⟩ ∧
    (⟨1, 0⟩ : Enty).version = 0 ∧
    (⟨[⟨1, 0⟩], [⟨0, 4, [some 7]⟩]⟩ : Store).modify 0 ⟨0, 9⟩ (fun _ => some 1)
      = .ok (⟨[⟨1, 0⟩], [⟨0, 4, [some 7]⟩]⟩, false) :=
  ⟨by decide,
   (claim_C9 1 [.reg 0 4, .mod 0 ⟨0, 0⟩ (fun _ => some 7)] ⟨[⟨1, 0⟩], [⟨0, 4, [some 7]⟩]⟩
     (by decide)).2.1 ⟨1, 0⟩ (by decide),
   (claim_C9 1 [.reg 0 4, .mod 0 ⟨0, 0⟩ (fun _ => some 7)] ⟨[⟨1, 0⟩], [⟨0, 4, [some 7]⟩]⟩
     (by decide)).2.2 0 ⟨0, 9⟩ (fun _ => some 1) ⟨1, 0⟩ (by decide) (by decide)⟩

end Ecs

namespace Simul

/-- `log2f` with enough fuel computes the floor of log₂. -/
theorem log2f_spec : ∀ (fuel n : Nat), 1 ≤ n → n < 2 ^ fuel →
    2 ^ log2f fuel n ≤ n ∧ n < 2 ^ (log2f fuel n + 1) := by
  intro fuel
  induction fuel with
  | zero =>
      intro n h1 h2
      rw [pow_zero] at h2
      omega
  | succ fuel ih =>
      intro n h1 h2
      unfold log2f
      by_cases hn : n ≤ 1
      · rw [if_pos hn]
        have hn1 : n = 1 := by omega
        subst hn1
        norm_num
      · rw [if_neg hn]
        have h2' : n / 2 < 2 ^ fuel := by
          rw [pow_succ] at h2
          omega
        obtain ⟨ha, hb⟩ := ih (n / 2) (by omega) h2'
        constructor
        · rw [pow_succ]
          omega
        · rw [pow_succ]
          omega

/-- Rounding does not go below the integer part. -/
theorem roundHE_ge (t r u : Nat) : t ≤ roundHE t r u := by
  unfold roundHE
  split_ifs <;> omega

/-- Rounding does not exceed the next integer. -/
theorem roundHE_le (t r u : Nat) : roundHE t r u ≤ t + 1 := by
  unfold roundHE
  split_ifs <;> omega

/-- Rounding exact values is the identity. -/
theorem roundHE_exact (t : Nat) {u : Nat} (hu : 0 < u) : roundHE t 0 u = t := by
  unfold roundHE
  rw [if_pos (by omega)]

/-- Round-half-even is monotone in the value `t + r/u`. -/
theorem roundHE_mono {t1 r1 t2 r2 u : Nat} (h1 : t1 ≤ t2) (h2 : t1 = t2 → r1 ≤ r2) :
    roundHE t1 r1 u ≤ roundHE t2 r2 u := by
  unfold roundHE
  split_ifs <;> omega

/-- Below `2^24` the cast is exact. -/
theorem natToF32_small {n : Nat} (h : n < 2 ^ 24) : natToF32 n = n := by
  unfold natToF32
  rw [if_pos h]

/-- Above `2^24` the cast rounds on the grid of the leading binade. -/
theorem natToF32_big {n : Nat} (h : 2 ^ 24 ≤ n) :
    natToF32 n = roundHE (n / 2 ^ (log2f 64 n - 23)) (n % 2 ^ (log2f 64 n - 23))
      (2 ^ (log2f 64 n - 23)) * 2 ^ (log2f 64 n - 23) := by
  unfold natToF32
  rw [if_neg (not_lt.mpr h)]

/-- A large magnitude's exponent is at least 24. -/
theorem log2f_ge_24 {n : Nat} (h : 2 ^ 24 ≤ n) (h2 : n < 2 ^ 64) : 24 ≤ log2f 64 n := by
  obtain ⟨-, hb⟩ := log2f_spec 64 n (by omega) h2
  by_contra hc
  push_neg at hc
  have : n < 2 ^ 24 := lt_of_lt_of_le hb (Nat.pow_le_pow_right (by norm_num) (by omega))
  omega

/-- The cast of a large magnitude stays at or above its leading power of two. -/
theorem natToF32_ge_pow {n : Nat} (h : 2 ^ 24 ≤ n) (h2 : n < 2 ^ 64) :
    2 ^ log2f 64 n ≤ natToF32 n := by
  obtain ⟨ha, -⟩ := log2f_spec 64 n (by omega) h2
  have he := log2f_ge_24 h h2
  rw [natToF32_big h]
  have hu : (0 : Nat) < 2 ^ (log2f 64 n - 23) := Nat.two_pow_pos _
  have ht : 2 ^ 23 ≤ n / 2 ^ (log2f 64 n - 23) := by
    rw [Nat.le_div_iff_mul_le hu, ← pow_add]
    calc 2 ^ (23 + (log2f 64 n - 23)) = 2 ^ log2f 64 n := by congr 1; omega
    _ ≤ n := ha
  calc 2 ^ log2f 64 n = 2 ^ 23 * 2 ^ (log2f 64 n - 23) := by rw [← pow_add]; congr 1; omega
  _ ≤ (n / 2 ^ (log2f 64 n - 23)) * 2 ^ (log2f 64 n - 23) := Nat.mul_le_mul_right _ ht
  _ ≤ _ := Nat.mul_le_mul_right _ (roundHE_ge _ _ _)

/-- The cast of a large magnitude stays below twice its leading power of two. -/
theorem natToF32_le_pow {n : Nat} (h : 2 ^ 24 ≤ n) (h2 : n < 2 ^ 64) :
    natToF32 n ≤ 2 ^ (log2f 64 n + 1) := by
  obtain ⟨-, hb⟩ := log2f_spec 64 n (by omega) h2
  have he := log2f_ge_24 h h2
  rw [natToF32_big h]
  have hu : (0 : Nat) < 2 ^ (log2f 64 n - 23) := Nat.two_pow_pos _
  have ht : n / 2 ^ (log2f 64 n - 23) < 2 ^ 24 := by
    rw [Nat.div_lt_iff_lt_mul hu, ← pow_add]
    calc n < 2 ^ (log2f 64 n + 1) := hb
    _ = 2 ^ (24 + (log2f 64 n - 23)) := by congr 1; omega
  calc roundHE _ _ _ * 2 ^ (log2f 64 n - 23)
      ≤ (n / 2 ^ (log2f 64 n - 23) + 1) * 2 ^ (log2f 64 n - 23) :=
        Nat.mul_le_mul_right _ (roundHE_le _ _ _)
  _ ≤ 2 ^ 24 * 2 ^ (log2f 64 n - 23) := Nat.mul_le_mul_right _ (by omega)
  _ = 2 ^ (log2f 64 n + 1) := by rw [← pow_add]; congr 1; omega

/-- `log2f` never exceeds its fuel. -/
theorem log2f_le : ∀ (fuel n : Nat), log2f fuel n ≤ fuel := by
  intro fuel
  induction fuel with
  | zero => intro n; simp [log2f]
  | succ f ih =>
      intro n
      unfold log2f
      split_ifs
      · omega
      · exact Nat.succ_le_succ (ih _)

/-- The cast never returns 0 on a nonzero magnitude. -/
theorem natToF32_pos {n : Nat} (h : 1 ≤ n) : 1 ≤ natToF32 n := by
  by_cases hs : n < 2 ^ 24
  · rw [natToF32_small hs]; exact h
  · push_neg at hs
    rw [natToF32_big hs]
    have hu : (0 : Nat) < 2 ^ (log2f 64 n - 23) := Nat.two_pow_pos _
    have hun : 2 ^ (log2f 64 n - 23) ≤ n := by
      rcases Nat.lt_or_ge n (2 ^ 64) with h64 | h64
      · calc 2 ^ (log2f 64 n - 23) ≤ 2 ^ log2f 64 n :=
            Nat.pow_le_pow_right (by norm_num) (by omega)
        _ ≤ n := (log2f_spec 64 n (by omega) h64).1
      · have hl := log2f_le 64 n
        calc 2 ^ (log2f 64 n - 23) ≤ 2 ^ 64 := Nat.pow_le_pow_right (by norm_num) (by omega)
        _ ≤ n := h64
    have ht : 1 ≤ n / 2 ^ (log2f 64 n - 23) := (Nat.le_div_iff_mul_le hu).mpr (by omega)
    have hr := roundHE_ge (n / 2 ^ (log2f 64 n - 23)) (n % 2 ^ (log2f 64 n - 23))
      (2 ^ (log2f 64 n - 23))
    exact Nat.one_le_iff_ne_zero.mpr (Nat.mul_ne_zero (by omega) (by omega))

/-- A magnitude below `2^63` casts to at most `2^63`. -/
theorem natToF32_le63 {n : Nat} (h : n < 2 ^ 63) : natToF32 n ≤ 2 ^ 63 := by
  by_cases hs : n < 2 ^ 24
  · rw [natToF32_small hs]; omega
  · push_neg at hs
    have h64 : n < 2 ^ 64 := by omega
    calc natToF32 n ≤ 2 ^ (log2f 64 n + 1) := natToF32_le_pow hs h64
    _ ≤ 2 ^ 63 := by
        apply Nat.pow_le_pow_right (by norm_num)
        have := (log2f_spec 64 n (by omega) h64).1
        by_contra hc
        push_neg at hc
        have : (2 : Nat) ^ 63 ≤ 2 ^ log2f 64 n := Nat.pow_le_pow_right (by norm_num) (by omega)
        omega

/-- The binary32 cast is monotone. -/
theorem natToF32_mono {a b : Nat} (hab : a ≤ b) (hb : b < 2 ^ 64) :
    natToF32 a ≤ natToF32 b := by
  by_cases h1 : a < 2 ^ 24
  · by_cases h2 : b < 2 ^ 24
    · rw [natToF32_small h1, natToF32_small h2]; exact hab
    · push_neg at h2
      rw [natToF32_small h1]
      refine le_of_lt ?_
      calc a < 2 ^ 24 := h1
      _ ≤ 2 ^ log2f 64 b := Nat.pow_le_pow_right (by norm_num) (log2f_ge_24 h2 hb)
      _ ≤ natToF32 b := natToF32_ge_pow h2 hb
  · push_neg at h1
    have h2 : 2 ^ 24 ≤ b := le_trans h1 hab
    have ha64 : a < 2 ^ 64 := by omega
    obtain ⟨haa, hab2⟩ := log2f_spec 64 a (by omega) ha64
    obtain ⟨hba, hbb⟩ := log2f_spec 64 b (by omega) hb
    have hee : log2f 64 a ≤ log2f 64 b := by
      by_contra hc
      push_neg at hc
      have : (2 : Nat) ^ (log2f 64 b + 1) ≤ 2 ^ log2f 64 a :=
        Nat.pow_le_pow_right (by norm_num) (by omega)
      omega
    rcases eq_or_lt_of_le hee with heq | hlt
    · -- same binade, same grid
      rw [natToF32_big h1, natToF32_big h2, heq]
      have hu : (0 : Nat) < 2 ^ (log2f 64 b - 23) := Nat.two_pow_pos _
      apply Nat.mul_le_mul_right
      apply roundHE_mono (Nat.div_le_div_right hab)
      intro hteq
      have hda := Nat.div_add_mod a (2 ^ (log2f 64 b - 23))
      have hdb := Nat.div_add_mod b (2 ^ (log2f 64 b - 23))
      rw [hteq] at hda
      omega
    · -- different binades
      calc natToF32 a ≤ 2 ^ (log2f 64 a + 1) := natToF32_le_pow h1 ha64
      _ ≤ 2 ^ log2f 64 b := Nat.pow_le_pow_right (by norm_num) (by omega)
      _ ≤ natToF32 b := natToF32_ge_pow h2 hb

end Simul

namespace Simul

/-- With enough fuel, `upShift` reaches the normalised range, crossing the
`2^23·q` threshold by at most a factor of two. -/
theorem upShift_spec : ∀ (f p q : Nat), 1 ≤ p → 2 ^ 23 * q ≤ p * 2 ^ f →
    2 ^ 23 * q ≤ p * 2 ^ upShift f p q ∧
    (upShift f p q = 0 ∨ p * 2 ^ upShift f p q < 2 ^ 24 * q) := by
  intro f
  induction f with
  | zero =>
      intro p q h1 h2
      exact ⟨by simpa [upShift] using h2, Or.inl rfl⟩
  | succ f ih =>
      intro p q h1 h2
      unfold upShift
      by_cases hc : 2 ^ 23 * q ≤ p
      · rw [if_pos hc]
        exact ⟨by simpa using hc, Or.inl rfl⟩
      · rw [if_neg hc]
        have h2' : 2 ^ 23 * q ≤ 2 * p * 2 ^ f := by
          rw [show 2 * p * 2 ^ f = p * 2 ^ (f + 1) from by rw [pow_succ]; ring]
          exact h2
        obtain ⟨ha, hb⟩ := ih (2 * p) q (by omega) h2'
        refine ⟨?_, Or.inr ?_⟩
        · rw [pow_succ]
          calc 2 ^ 23 * q ≤ 2 * p * 2 ^ upShift f (2 * p) q := ha
          _ = p * (2 ^ upShift f (2 * p) q * 2) := by ring
        · rw [pow_succ]
          rcases hb with h0 | hlt
          · rw [h0] at ha ⊢
            push_neg at hc
            calc p * (2 ^ 0 * 2) = 2 * p := by ring
            _ < 2 ^ 24 * q := by omega
          · calc p * (2 ^ upShift f (2 * p) q * 2) = 2 * p * 2 ^ upShift f (2 * p) q := by ring
            _ < 2 ^ 24 * q := hlt

/-- With enough fuel, `dnShift` reaches the normalised range, crossing the
`2^24·q` threshold by at most a factor of two. -/
theorem dnShift_spec : ∀ (f p q : Nat), 1 ≤ q → p < 2 ^ 24 * (q * 2 ^ f) →
    p < 2 ^ 24 * (q * 2 ^ dnShift f p q) ∧
    (dnShift f p q = 0 ∨ 2 ^ 23 * (q * 2 ^ dnShift f p q) ≤ p) := by
  intro f
  induction f with
  | zero =>
      intro p q h1 h2
      exact ⟨by simpa [dnShift] using h2, Or.inl rfl⟩
  | succ f ih =>
      intro p q h1 h2
      unfold dnShift
      by_cases hc : p < 2 ^ 24 * q
      · rw [if_pos hc]
        exact ⟨by simpa using hc, Or.inl rfl⟩
      · rw [if_neg hc]
        have h2' : p < 2 ^ 24 * (2 * q * 2 ^ f) := by
          rw [show 2 ^ 24 * (2 * q * 2 ^ f) = 2 ^ 24 * (q * 2 ^ (f + 1)) from by
            rw [pow_succ]; ring]
          exact h2
        obtain ⟨ha, hb⟩ := ih p (2 * q) (by omega) h2'
        refine ⟨?_, Or.inr ?_⟩
        · rw [pow_succ]
          calc p < 2 ^ 24 * (2 * q * 2 ^ dnShift f p (2 * q)) := ha
          _ = 2 ^ 24 * (q * (2 ^ dnShift f p (2 * q) * 2)) := by ring
        · rw [pow_succ]
          rcases hb with h0 | hle
          · rw [h0] at ha ⊢
            push_neg at hc
            calc 2 ^ 23 * (q * (2 ^ 0 * 2)) = 2 ^ 24 * q := by ring
            _ ≤ p := hc
          · calc 2 ^ 23 * (q * (2 ^ dnShift f p (2 * q) * 2))
                = 2 ^ 23 * (2 * q * 2 ^ dnShift f p (2 * q)) := by ring
            _ ≤ p := hle

/-- The normalised pair `(p·2^a, q·2^b)` has its quotient in `[2^23, 2^24)`. -/
theorem shift_bounds {p q : Nat} (hp : 1 ≤ p) (hq : 1 ≤ q) (hp2 : p ≤ 2 ^ 64)
    (hq2 : q ≤ 2 ^ 64) :
    2 ^ 23 * (q * 2 ^ dnShift 150 p q) ≤ p * 2 ^ upShift 150 p q ∧
    p * 2 ^ upShift 150 p q < 2 ^ 24 * (q * 2 ^ dnShift 150 p q) := by
  by_cases hc : 2 ^ 23 * q ≤ p
  · have ha0 : upShift 150 p q = 0 := by
      show upShift (149 + 1) p q = 0
      unfold upShift
      rw [if_pos hc]
    obtain ⟨hd1, hd2⟩ := dnShift_spec 150 p q hq (by nlinarith [Nat.two_pow_pos 150])
    rw [ha0]
    constructor
    · rcases hd2 with h0 | hle
      · rw [h0]
        simpa using hc
      · simpa using hle
    · simpa using hd1
  · have hb0 : dnShift 150 p q = 0 := by
      show dnShift (149 + 1) p q = 0
      unfold dnShift
      rw [if_pos (by omega)]
    obtain ⟨hu1, hu2⟩ := upShift_spec 150 p q hp (by nlinarith [Nat.two_pow_pos 150])
    rw [hb0]
    constructor
    · simpa using hu1
    · rcases hu2 with h0 | hlt
      · rw [h0]
        push_neg at hc
        simpa using (by omega : p * 1 < 2 ^ 24 * q)
      · simpa using hlt

end Simul

namespace Simul

/-- `divRnd` on nonzero arguments, unfolded. -/
theorem divRnd_def {p q : Nat} (hp : p ≠ 0) (hq : q ≠ 0) :
    divRnd p q =
      if dnShift 150 p q ≤ upShift 150 p q then
        (roundHE (p * 2 ^ upShift 150 p q / (q * 2 ^ dnShift 150 p q))
            (p * 2 ^ upShift 150 p q % (q * 2 ^ dnShift 150 p q))
            (q * 2 ^ dnShift 150 p q) : ℚ) / 2 ^ (upShift 150 p q - dnShift 150 p q)
      else
        (roundHE (p * 2 ^ upShift 150 p q / (q * 2 ^ dnShift 150 p q))
            (p * 2 ^ upShift 150 p q % (q * 2 ^ dnShift 150 p q))
            (q * 2 ^ dnShift 150 p q) : ℚ) * 2 ^ (dnShift 150 p q - upShift 150 p q) := by
  unfold divRnd
  rw [if_neg (by simp [hp, hq])]

/-- The rounded significand of a normalised quotient lies in `[2^23, 2^24]`. -/
theorem divRnd_core {p q : Nat} (hp : 1 ≤ p) (hq : 1 ≤ q) (hp2 : p ≤ 2 ^ 64)
    (hq2 : q ≤ 2 ^ 64) :
    2 ^ 23 ≤ roundHE (p * 2 ^ upShift 150 p q / (q * 2 ^ dnShift 150 p q))
        (p * 2 ^ upShift 150 p q % (q * 2 ^ dnShift 150 p q)) (q * 2 ^ dnShift 150 p q) ∧
    roundHE (p * 2 ^ upShift 150 p q / (q * 2 ^ dnShift 150 p q))
        (p * 2 ^ upShift 150 p q % (q * 2 ^ dnShift 150 p q)) (q * 2 ^ dnShift 150 p q)
      ≤ 2 ^ 24 := by
  obtain ⟨h1, h2⟩ := shift_bounds hp hq hp2 hq2
  have hQ : 0 < q * 2 ^ dnShift 150 p q := by positivity
  constructor
  · calc (2 : Nat) ^ 23 ≤ p * 2 ^ upShift 150 p q / (q * 2 ^ dnShift 150 p q) :=
        (Nat.le_div_iff_mul_le hQ).mpr h1
    _ ≤ _ := roundHE_ge _ _ _
  · have ht : p * 2 ^ upShift 150 p q / (q * 2 ^ dnShift 150 p q) < 2 ^ 24 :=
      (Nat.div_lt_iff_lt_mul hQ).mpr h2
    have hr := roundHE_le (p * 2 ^ upShift 150 p q / (q * 2 ^ dnShift 150 p q))
      (p * 2 ^ upShift 150 p q % (q * 2 ^ dnShift 150 p q)) (q * 2 ^ dnShift 150 p q)
    omega

/-- A binary32 quotient is nonnegative. -/
theorem divRnd_nonneg (p q : Nat) : 0 ≤ divRnd p q := by
  simp only [divRnd]
  split_ifs <;> positivity

/-- Dividing a nonzero binary32 value by itself gives exactly 1. -/
theorem divRnd_self {p : Nat} (hp : 1 ≤ p) (hp2 : p ≤ 2 ^ 64) : divRnd p p = 1 := by
  obtain ⟨h1, h2⟩ := shift_bounds hp hp hp2 hp2
  set a := upShift 150 p p with haDef
  set b := dnShift 150 p p with hbDef
  have hab : a = b + 23 := by
    have e1 : 2 ^ (23 + b) * p ≤ 2 ^ a * p := by
      calc 2 ^ (23 + b) * p = 2 ^ 23 * (p * 2 ^ b) := by rw [pow_add]; ring
      _ ≤ p * 2 ^ a := h1
      _ = 2 ^ a * p := by ring
    have e2 : 2 ^ a * p < 2 ^ (24 + b) * p := by
      calc 2 ^ a * p = p * 2 ^ a := by ring
      _ < 2 ^ 24 * (p * 2 ^ b) := h2
      _ = 2 ^ (24 + b) * p := by rw [pow_add]; ring
    have f1 : (2 : Nat) ^ (23 + b) ≤ 2 ^ a := Nat.le_of_mul_le_mul_right e1 (by omega)
    have f2 : (2 : Nat) ^ a < 2 ^ (24 + b) :=
      Nat.lt_of_mul_lt_mul_left (by calc p * 2 ^ a = 2 ^ a * p := by ring
        _ < 2 ^ (24 + b) * p := e2
        _ = p * 2 ^ (24 + b) := by ring)
    have g1 : 23 + b ≤ a := by
      by_contra hcon
      push_neg at hcon
      have := (Nat.pow_lt_pow_iff_right (by norm_num : (1 : Nat) < 2)).mpr hcon
      omega
    have g2 : a < 24 + b := (Nat.pow_lt_pow_iff_right (by norm_num : (1 : Nat) < 2)).mp f2
    omega
  have hQpos : 0 < p * 2 ^ b := by positivity
  have hPQ : p * 2 ^ a = (p * 2 ^ b) * 2 ^ 23 := by
    rw [hab, pow_add]
    ring
  rw [divRnd_def (by omega) (by omega), if_pos (by omega), hPQ,
    Nat.mul_div_cancel_left _ hQpos, Nat.mul_mod_right, roundHE_exact _ hQpos,
    show a - b = 23 from by omega]
  push_cast
  norm_num

/-- A binary32 quotient of a smaller by a larger value is at most 1. -/
theorem divRnd_le_one {p q : Nat} (hp : 1 ≤ p) (hq : 1 ≤ q) (hp2 : p ≤ 2 ^ 64)
    (hq2 : q ≤ 2 ^ 64) (hpq : p ≤ q) : divRnd p q ≤ 1 := by
  rcases eq_or_lt_of_le hpq with heq | hlt
  · subst heq
    rw [divRnd_self hp hp2]
  · obtain ⟨h1, h2⟩ := shift_bounds hp hq hp2 hq2
    obtain ⟨hn1, hn2⟩ := divRnd_core hp hq hp2 hq2
    set a := upShift 150 p q with haDef
    set b := dnShift 150 p q with hbDef
    have hab : 24 + b ≤ a := by
      have e1 : 2 ^ (23 + b) * q < 2 ^ a * q := by
        calc 2 ^ (23 + b) * q = 2 ^ 23 * (q * 2 ^ b) := by rw [pow_add]; ring
        _ ≤ p * 2 ^ a := h1
        _ < q * 2 ^ a := by nlinarith [Nat.two_pow_pos a]
        _ = 2 ^ a * q := by ring
      have f1 : (2 : Nat) ^ (23 + b) < 2 ^ a :=
        Nat.lt_of_mul_lt_mul_left (by calc q * 2 ^ (23 + b) = 2 ^ (23 + b) * q := by ring
          _ < 2 ^ a * q := e1
          _ = q * 2 ^ a := by ring)
      have := (Nat.pow_lt_pow_iff_right (by norm_num : (1 : Nat) < 2)).mp f1
      omega
    rw [divRnd_def (by omega) (by omega), if_pos (by omega),
      div_le_one (by positivity)]
    calc (roundHE (p * 2 ^ a / (q * 2 ^ b)) (p * 2 ^ a % (q * 2 ^ b)) (q * 2 ^ b) : ℚ)
        ≤ ((2 ^ 24 : Nat) : ℚ) := by exact_mod_cast hn2
    _ ≤ ((2 ^ (a - b) : Nat) : ℚ) := by
        exact_mod_cast Nat.pow_le_pow_right (by norm_num) (by omega)
    _ = 2 ^ (a - b) := by push_cast; ring

/-- Below `2^24` the division of a strictly smaller by a larger value stays
strictly below 1. -/
theorem divRnd_lt_one {p q : Nat} (hp : 1 ≤ p) (hq24 : q < 2 ^ 24) (hpq : p < q) :
    divRnd p q < 1 := by
  have hq : 1 ≤ q := by omega
  have hp2 : p ≤ 2 ^ 64 := by omega
  have hq2 : q ≤ 2 ^ 64 := by omega
  obtain ⟨h1, h2⟩ := shift_bounds hp hq hp2 hq2
  set a := upShift 150 p q with haDef
  set b := dnShift 150 p q with hbDef
  have hb0 : b = 0 := by
    rw [hbDef]
    show dnShift (149 + 1) p q = 0
    unfold dnShift
    rw [if_pos (by omega)]
  have h1' : 2 ^ 23 * q ≤ p * 2 ^ a := by
    have := h1
    rw [hb0] at this
    simpa using this
  have hab : 24 ≤ a := by
    have e1 : 2 ^ 23 * q < 2 ^ a * q := by
      calc 2 ^ 23 * q ≤ p * 2 ^ a := h1'
      _ < q * 2 ^ a := by nlinarith [Nat.two_pow_pos a]
      _ = 2 ^ a * q := by ring
    have f1 : (2 : Nat) ^ 23 < 2 ^ a :=
      Nat.lt_of_mul_lt_mul_left (by calc q * 2 ^ 23 = 2 ^ 23 * q := by ring
        _ < 2 ^ a * q := e1
        _ = q * 2 ^ a := by ring)
    have := (Nat.pow_lt_pow_iff_right (by norm_num : (1 : Nat) < 2)).mp f1
    omega
  have hQ : 0 < q * 2 ^ b := by positivity
  have hcases : roundHE (p * 2 ^ a / (q * 2 ^ b)) (p * 2 ^ a % (q * 2 ^ b)) (q * 2 ^ b)
      < 2 ^ (a - b) := by
    have hr := roundHE_le (p * 2 ^ a / (q * 2 ^ b)) (p * 2 ^ a % (q * 2 ^ b)) (q * 2 ^ b)
    rcases eq_or_lt_of_le hab with h24 | h25
    · have hmul : p * 2 ^ a < (2 ^ 24 - 1) * (q * 2 ^ b) := by
        rw [hb0, ← h24]
        have hple : p ≤ q - 1 := by omega
        have : p * 2 ^ 24 ≤ (q - 1) * 2 ^ 24 := Nat.mul_le_mul_right _ hple
        omega
      have ht : p * 2 ^ a / (q * 2 ^ b) < 2 ^ 24 - 1 := (Nat.div_lt_iff_lt_mul hQ).mpr hmul
      have h240 : a - b = 24 := by omega
      rw [h240]
      omega
    · have ht : p * 2 ^ a / (q * 2 ^ b) < 2 ^ 24 := (Nat.div_lt_iff_lt_mul hQ).mpr h2
      have hpow : (2 : Nat) ^ 25 ≤ 2 ^ (a - b) := Nat.pow_le_pow_right (by norm_num) (by omega)
      omega
  rw [divRnd_def (by omega) (by omega), if_pos (by omega),
    div_lt_one (by positivity)]
  exact_mod_cast hcases

/-- A binary32 quotient of nonzero values is positive: no underflow to zero
occurs in the modelled range. -/
theorem divRnd_pos {p q : Nat} (hp : 1 ≤ p) (hq : 1 ≤ q) (hp2 : p ≤ 2 ^ 64)
    (hq2 : q ≤ 2 ^ 64) : 0 < divRnd p q := by
  obtain ⟨hn1, -⟩ := divRnd_core hp hq hp2 hq2
  have hn0 : (0 : ℚ) < roundHE (p * 2 ^ upShift 150 p q / (q * 2 ^ dnShift 150 p q))
      (p * 2 ^ upShift 150 p q % (q * 2 ^ dnShift 150 p q)) (q * 2 ^ dnShift 150 p q) := by
    exact_mod_cast lt_of_lt_of_le (Nat.two_pow_pos 23) hn1
  rw [divRnd_def (by omega) (by omega)]
  split_ifs
  · exact div_pos hn0 (by positivity)
  · exact mul_pos hn0 (by positivity)

end Simul

namespace Simul

/-- Claim C3, counterexample: with the realistic 30 Hz tick
`T = 33,333,333 ns`, one completed frame of elapsed span 1 ns leaves
`cumul = -33,333,332`; the `as f32` cast rounds `33,333,333` (a tie) down to
`33,333,332.0`, the numerator is exact, the quotient is exactly `-1.0`, and
`interpolate` receives `α = 1.0` — violating the claimed `α < 1`. -/
theorem claim_C3_counterexample :
    frameSteps 33333333 0 1 = some ⟨-33333332, (), none, 1, 1⟩ ∧
    alpha32 33333333 (-33333332) = 1 ∧
    ¬alpha32 33333333 (-33333332) < 1 := by
  have h1 : natToF32 33333332 = 33333332 := by decide
  have h2 : natToF32 33333333 = 33333332 := by decide
  have e1 : (-33333332 : Int).natAbs = 33333332 := by decide
  have e2 : (33333333 : Int).natAbs = 33333333 := by decide
  have hval : alpha32 33333333 (-33333332) = 1 := by
    unfold alpha32
    rw [if_neg (by decide), e1, e2, h1, h2, divRnd_self (by norm_num) (by norm_num)]
  exact ⟨by decide, hval, by rw [hval]; exact lt_irrefl 1⟩

/-- Claim C3 (amended): a completed `simulate` call entered with positive
tick (an `i64` nanosecond span), accumulator above `-tick` and a
non-negative elapsed span leaves the accumulator in `(-tick, 0]`, and the
binary32 blend factor satisfies `0 ≤ α ≤ 1`, with `α = 0` exactly when the
frame ended on a tick boundary; the strict bound `α < 1` holds whenever
`tick < 2^24 ns` (≈ 16.8 ms, covering 60 Hz and faster ticks), but for
larger ticks `f32` rounding can make `α` exactly 1. -/
theorem claim_C3_amended {σ π ε : Type} (T c d : Int) (s0 : σ) (step : σ → σ)
    (h : σ → Except ε (Option π)) (fuel : Nat) (st : LoopState σ π)
    (hT : 0 < T) (hT2 : T < 2 ^ 63) (hc : -T < c) (hd : 0 ≤ d)
    (hrun : simulateF T c d s0 step h fuel = some (.ok st)) :
    (-T < st.cumul ∧ st.cumul ≤ 0) ∧
    (0 ≤ alpha32 T st.cumul ∧ alpha32 T st.cumul ≤ 1) ∧
    (alpha32 T st.cumul = 0 ↔ st.cumul = 0) ∧
    (T < 2 ^ 24 → alpha32 T st.cumul < 1) := by
  obtain ⟨n, hsteps, hcum, hle, heq0, hpos, -, -, -, -⟩ := loopF_spec step h _ _ _ hrun
  dsimp only at hcum heq0 hpos
  have hint : -T < st.cumul ∧ st.cumul ≤ 0 := by
    refine ⟨?_, hle⟩
    rcases le_or_lt (c + d) 0 with hle2 | hgt
    · have hst := heq0 hle2
      have hval : st.cumul = c + d := by rw [hst]
      omega
    · exact (hpos hgt).2
  obtain ⟨hi1, hi2⟩ := hint
  by_cases hc0 : st.cumul = 0
  · have halpha : alpha32 T st.cumul = 0 := by
      rw [hc0]
      unfold alpha32
      rw [if_pos (Or.inr ⟨le_refl 0, le_of_lt hT⟩)]
      simp [divRnd, natToF32]
    refine ⟨⟨hi1, hi2⟩, ⟨by rw [halpha], by rw [halpha]; norm_num⟩, ?_,
      fun _ => by rw [halpha]; norm_num⟩
    exact ⟨fun _ => hc0, fun _ => halpha⟩
  · have hcneg : st.cumul < 0 := lt_of_le_of_ne hi2 hc0
    have hAB : st.cumul.natAbs < T.natAbs := by omega
    have hA1 : 1 ≤ st.cumul.natAbs := by omega
    have hB1 : 1 ≤ T.natAbs := by omega
    have hB63 : T.natAbs < 2 ^ 63 := by omega
    have hA63 : st.cumul.natAbs < 2 ^ 63 := by omega
    have halpha : alpha32 T st.cumul
        = divRnd (natToF32 st.cumul.natAbs) (natToF32 T.natAbs) := by
      unfold alpha32
      rw [if_neg (by rintro (⟨-, hTneg⟩ | ⟨hge, -⟩) <;> omega)]
    have hfa1 : 1 ≤ natToF32 st.cumul.natAbs := natToF32_pos hA1
    have hfb1 : 1 ≤ natToF32 T.natAbs := natToF32_pos hB1
    have hfa2 : natToF32 st.cumul.natAbs ≤ 2 ^ 64 :=
      le_trans (natToF32_le63 hA63) (by norm_num)
    have hfb2 : natToF32 T.natAbs ≤ 2 ^ 64 := le_trans (natToF32_le63 hB63) (by norm_num)
    have hfab : natToF32 st.cumul.natAbs ≤ natToF32 T.natAbs :=
      natToF32_mono (le_of_lt hAB) (by omega)
    refine ⟨⟨hi1, hi2⟩, ⟨?_, ?_⟩, ?_, ?_⟩
    · rw [halpha]
      exact divRnd_nonneg _ _
    · rw [halpha]
      exact divRnd_le_one hfa1 hfb1 hfa2 hfb2 hfab
    · rw [halpha]
      constructor
      · intro h0
        exact absurd h0 (ne_of_gt (divRnd_pos hfa1 hfb1 hfa2 hfb2))
      · intro h0
        exact absurd h0 hc0
    · intro hT24
      rw [halpha]
      have hB24 : T.natAbs < 2 ^ 24 := by omega
      have hA24 : st.cumul.natAbs < 2 ^ 24 := by omega
      rw [natToF32_small hA24, natToF32_small hB24]
      exact divRnd_lt_one hA1 hB24 hAB

/-- Witness for the amended claim C3 at tick 10, spans 0 then 25, state ℕ
with `step = succ`: the run ends at accumulator `-5` after 3 steps, and the
tick is far below `2^24` ns so the strict bound applies. -/
theorem claim_C3_amended_witness :
    simulateF 10 0 25 (0 : ℕ) Nat.succ (fun n => Except.ok (ε := Unit) (some n)) 25
      = some (.ok ⟨-5, 3, some 2, 3, 1⟩) ∧
    ((-(10 : Int) < -5 ∧ (-5 : Int) ≤ 0) ∧
     (0 ≤ alpha32 10 (-5) ∧ alpha32 10 (-5) ≤ 1) ∧
     (alpha32 10 (-5) = 0 ↔ (-5 : Int) = 0) ∧
     ((10 : Int) < 2 ^ 24 → alpha32 10 (-5) < 1)) :=
  ⟨by decide,
   claim_C3_amended 10 0 25 0 Nat.succ (fun n => Except.ok (ε := Unit) (some n)) 25
     ⟨-5, 3, some 2, 3, 1⟩ (by decide) (by decide) (by decide) (by decide) (by decide)⟩

end Simul
